import Mathlib

/-!
Verification of the MikanOS terminal / ELF-loader / page-map builder
(`kernel/terminal.cpp` and the headers it uses).

The development shallowly embeds the C++ code:

* unsigned 64-bit machine arithmetic is `Nat` with explicit `% 2^64`
  where overflow matters;
* the ELF image is a parsed header (`Ehdr`) together with the raw file
  bytes as a function `Nat → Nat` (byte at each offset), the program
  headers being the list iterated via `e_phoff`/`e_phentsize`/`e_phnum`;
* the 4-level page-map tree rooted at CR3 is an inductive tree of nodes
  tagged with the physical frame that holds them (page-map frames are
  exclusively owned by the tree, so physical memory holding the maps is
  represented structurally); a node's entry list is an association list
  from entry index (0..511) to (writable bit, child subtree), an absent
  index standing for a zeroed, non-present entry;
* the frame allocator is a list of free frame ids;
* virtual memory written by the loader is a function `Nat → Nat`.
-/

namespace MikanOS

/-- 2^64, the modulus of `uint64_t` arithmetic. -/
def U64 : Nat := 18446744073709551616

/-- Errors produced by the code paths modelled here (`error.hpp` kinds). -/
inductive KError where
  | kNoEnoughMemory
  | kInvalidFormat
deriving DecidableEq

/-- ELF64 program header: the fields `terminal.cpp` reads. -/
structure Phdr where
  p_type : Nat
  p_offset : Nat
  p_vaddr : Nat
  p_filesz : Nat
  p_memsz : Nat
deriving DecidableEq

/-- The `PT_LOAD` segment type tag. -/
def PT_LOAD : Nat := 1

/-- The `ET_EXEC` object-file type tag. -/
def ET_EXEC : Nat := 2

/-- ELF64 header: the fields `terminal.cpp` reads.  `phdrs` is the list of
program headers obtained by iterating `GetProgramHeader` over
`0 ≤ i < e_phnum`. -/
structure Ehdr where
  e_ident4 : List Nat
  e_type : Nat
  e_entry : Nat
  phdrs : List Phdr
deriving DecidableEq

/-- The four magic bytes `"\x7fELF"` checked by `Terminal::ExecuteFile`. -/
def elfMagic : List Nat := [0x7f, 0x45, 0x4c, 0x46]

/-- Embeds `GetFirstLoadAddress` (terminal.cpp:70): scans the program headers in
order and stores the `p_vaddr` of the FIRST `PT_LOAD` header into the out
parameter, leaving it untouched when no `PT_LOAD` header exists.  `a` is
the current value of `*first_addr`. -/
def getFirstLoadAddress : List Phdr → Nat → Nat
  | [], a => a
  | ph :: rest, a =>
      if ph.p_type = PT_LOAD then ph.p_vaddr else getFirstLoadAddress rest a

/-- First loop of `CopyLoadSegments` (terminal.cpp:183), accumulator for
`vaddr_min` (initial value `0xffffffffffffffff`). -/
def vaddrMinLoop : List Phdr → Nat → Nat
  | [], m => m
  | ph :: rest, m =>
      vaddrMinLoop rest (if ph.p_type = PT_LOAD then min m ph.p_vaddr else m)

/-- First loop of `CopyLoadSegments`, accumulator for `vaddr_max`
(initial value `0`); `p_vaddr + p_memsz` is `uint64_t` addition. -/
def vaddrMaxLoop : List Phdr → Nat → Nat
  | [], m => m
  | ph :: rest, m =>
      vaddrMaxLoop rest
        (if ph.p_type = PT_LOAD then max m ((ph.p_vaddr + ph.p_memsz) % U64) else m)

/-- The copy loop body of `CopyLoadSegments` (terminal.cpp:214):
`memcpy(dst, src, p_filesz)` followed by
`memset(dst + p_filesz, 0, p_memsz - p_filesz)` (the `memset` length is
`uint64_t` subtraction).  `file` is the file buffer, `m` the virtual
memory before the two writes. -/
def applySegment (file : Nat → Nat) (m : Nat → Nat) (ph : Phdr) : Nat → Nat :=
  fun a =>
    if ph.p_vaddr ≤ a ∧ a < ph.p_vaddr + ph.p_filesz then
      file (ph.p_offset + (a - ph.p_vaddr))
    else if ph.p_vaddr + ph.p_filesz ≤ a ∧
        a < ph.p_vaddr + ph.p_filesz + (ph.p_memsz + U64 - ph.p_filesz) % U64 then
      0
    else m a

/-- Second loop of `CopyLoadSegments` (terminal.cpp:206): every `PT_LOAD`
segment is copied in header order. -/
def applyLoads (file : Nat → Nat) (m : Nat → Nat) (phdrs : List Phdr) : Nat → Nat :=
  phdrs.foldl (fun m ph => if ph.p_type = PT_LOAD then applySegment file m ph else m) m

/-- Modelled from the spec: `LinearAddress4Level` (its defining header is
not under `src/`; §3 of the spec: a virtual address broken into parts
`pml4`, `pdp`, `pd`, `pt`, `offset`, each 9 bits except the 12-bit
offset). -/
structure LinAddr where
  pml4 : Nat
  pdp : Nat
  pd : Nat
  pt : Nat
  offset : Nat
deriving DecidableEq

/-- Modelled from the spec: `LinearAddress4Level::Part(level)` returns the
9-bit index at `level` (4 = pml4, …, 1 = pt). -/
def LinAddr.part (a : LinAddr) : Nat → Nat
  | 4 => a.pml4 % 512
  | 3 => a.pdp % 512
  | 2 => a.pd % 512
  | 1 => a.pt % 512
  | _ => 0

/-- Modelled from the spec: `LinearAddress4Level::SetPart(level, v)` writes
the 9-bit index at `level`. -/
def LinAddr.setPart (a : LinAddr) : Nat → Nat → LinAddr
  | 4, v => { a with pml4 := v % 512 }
  | 3, v => { a with pdp := v % 512 }
  | 2, v => { a with pd := v % 512 }
  | 1, v => { a with pt := v % 512 }
  | _, _ => a

/-- Modelled from the spec: building a `LinearAddress4Level` from a raw
64-bit value (`dest_addr.value = vaddr_min`, terminal.cpp:196): the union
overlays the bitfields on the value. -/
def LinAddr.ofValue (v : Nat) : LinAddr :=
  { pml4 := v / 2 ^ 39 % 512
    pdp := v / 2 ^ 30 % 512
    pd := v / 2 ^ 21 % 512
    pt := v / 2 ^ 12 % 512
    offset := v % 4096 }

/-- Zero the address parts `1..k` (the
`for (level = page_map_level - 1; level >= 1; --level) SetPart(level, 0)`
loop at terminal.cpp:153). -/
def zeroParts (a : LinAddr) : Nat → LinAddr
  | 0 => a
  | k + 1 => (zeroParts a k).setPart (k + 1) 0

/-- A page-map node in physical memory: the frame that holds it and its
present entries.  An entry `(i, w, t)` models slot `i` holding a present
entry with writable bit `w` pointing at the frame of subtree `t`; indices
absent from the list model zeroed (non-present) entries.  At level 1 the
"subtree" of an entry is the mapped 4 KiB data frame (a leaf node with no
entries), matching `SetNewPageMapIfNotPresent` allocating a zeroed frame
for it. -/
inductive PMTree where
  | node (frame : Nat) (entries : List (Nat × Bool × PMTree))

/-- The frame holding a node. -/
def PMTree.frame : PMTree → Nat
  | .node f _ => f

/-- The present entries of a node. -/
def PMTree.entries : PMTree → List (Nat × Bool × PMTree)
  | .node _ es => es

/-- Entry list of one page-map node. -/
abbrev Entries := List (Nat × Bool × PMTree)

/-- Read slot `i` of a node (first matching entry; `none` = not present). -/
def getEntry : Entries → Nat → Option (Bool × PMTree)
  | [], _ => none
  | (j, w, t) :: rest, i => if j = i then some (w, t) else getEntry rest i

/-- Write slot `i` of a node (replace the first matching entry, or append). -/
def setEntry : Entries → Nat → Bool → PMTree → Entries
  | [], i, w, t => [(i, w, t)]
  | (j, w0, t0) :: rest, i, w, t =>
      if j = i then (i, w, t) :: rest else (j, w0, t0) :: setEntry rest i w t

/-- Zero slot `i` of a node (`page_map[i].data = 0`). -/
def removeEntry (es : Entries) (i : Nat) : Entries :=
  es.filter (fun e => e.1 ≠ i)

/-- Smallest element of a list of frame ids. -/
def listMin? : List Nat → Option Nat
  | [] => none
  | x :: xs =>
      some (match listMin? xs with
            | none => x
            | some m => min x m)

/-- Modelled from the spec: `BitmapMemoryManager::Allocate(1)`
(`memory_manager.cpp` is not under `src/`; §4.A of the spec: first-fit
linear scan from `range_begin`, so a single-frame allocation returns the
lowest free frame).  The allocator state is the list of free frame ids;
allocating removes the frame from it. -/
def allocate1 (free : List Nat) : Option (Nat × List Nat) :=
  match listMin? free with
  | none => none
  | some f => some (f, free.erase f)

/-- Result of `SetupPageMap`: the mutated node entries, the remaining page
count, the allocator state, and the error (`WithError<size_t>`). -/
structure SetupRes where
  es : Entries
  remaining : Nat
  free : List Nat
  err : Option KError

/-- The `while (num_4kpages > 0)` loop of `SetupPageMap`
(terminal.cpp:119).  `idxs` is the run of entry indices the loop can still
visit (the current `addr.Part(lvl)` up to 511); `descend` is
`SetupPageMap` at `lvl - 1`, passed in so the loop is structurally
recursive on `idxs`.  Each iteration ensures the entry is present
(`SetNewPageMapIfNotPresent`, allocating a zeroed frame when absent),
marks it writable, then either consumes one page (level 1) or descends;
on error it returns the page count current at the top of the iteration
together with the error; it breaks after index 511. -/
def setupLoop (descend : Entries → LinAddr → Nat → List Nat → SetupRes) (lvl : Nat) :
    List Nat → Entries → LinAddr → Nat → List Nat → SetupRes
  | [], es, _, n, free => ⟨es, n, free, none⟩
  | i :: rest, es, addr, n, free =>
    if n = 0 then ⟨es, n, free, none⟩
    else
      match
        (match getEntry es i with
         | some (_, c) => some (c, free)
         | none =>
             match allocate1 free with
             | none => none
             | some (f, free') => some (.node f [], free')) with
      | none => ⟨es, n, free, some .kNoEnoughMemory⟩
      | some (child, free1) =>
        let es1 := setEntry es i true child
        if lvl = 1 then
          if i = 511 then ⟨es1, n - 1, free1, none⟩
          else
            setupLoop descend lvl rest es1
              (zeroParts (addr.setPart lvl (i + 1)) (lvl - 1)) (n - 1) free1
        else
          let r := descend child.entries addr n free1
          let es2 := setEntry es i true (.node child.frame r.es)
          match r.err with
          | some e => ⟨es2, n, r.free, some e⟩
          | none =>
            if i = 511 then ⟨es2, r.remaining, r.free, none⟩
            else
              setupLoop descend lvl rest es2
                (zeroParts (addr.setPart lvl (i + 1)) (lvl - 1)) r.remaining r.free

/-- Embeds `SetupPageMap(page_map, level, addr, num_4kpages)` (terminal.cpp:119)
acting on the entries of the node for `page_map`.  Level 0 never occurs in
the kernel (the recursion stops at level 1). -/
def setupPageMap : Nat → Entries → LinAddr → Nat → List Nat → SetupRes
  | 0, es, _, n, free => ⟨es, n, free, none⟩
  | l + 1, es, addr, n, free =>
      setupLoop (setupPageMap l) (l + 1)
        (List.range' (addr.part (l + 1)) (512 - addr.part (l + 1))) es addr n free

/-- The `for (i = 0; i < 512; ++i)` loop of `CleanPageMap`
(terminal.cpp:255): for each present entry, recursively clean the child
when above level 1, then free the child's frame and zero the entry.
`cleanChild` is `CleanPageMap` at the level below; `doRec` is
`page_map_level > 1`.  Returns the allocator free list after all frees
(the node's entries are all zeroed, i.e. `[]`). -/
def cleanEntries (cleanChild : Entries → List Nat → List Nat) (doRec : Bool) :
    Entries → List Nat → List Nat
  | [], free => free
  | (_, _, .node f ces) :: rest, free =>
      let free1 := if doRec then cleanChild ces free else free
      cleanEntries cleanChild doRec rest (f :: free1)

/-- Embeds `CleanPageMap(page_map, page_map_level)` (terminal.cpp:253) acting on
the entries of the node for `page_map`; returns the allocator free list. -/
def cleanPageMap : Nat → Entries → List Nat → List Nat
  | 0, es, free => cleanEntries (fun _ f => f) false es free
  | l + 1, es, free => cleanEntries (cleanPageMap l) (0 < l) es free

/-- Machine state threaded through the loader: the PML4 tree rooted at
CR3, the frame allocator's free list, and virtual memory bytes. -/
structure MachineState where
  root : PMTree
  free : List Nat
  mem : Nat → Nat

/-- Embeds `SetupPageMaps(addr, num_4kpages)` (terminal.cpp:162): run
`SetupPageMap` at level 4 on the PML4 table at CR3. -/
def setupPageMaps (st : MachineState) (addr : LinAddr) (n : Nat) :
    MachineState × Option KError :=
  let r := setupPageMap 4 st.root.entries addr n st.free
  ({ st with root := .node st.root.frame r.es, free := r.free }, r.err)

/-- Embeds `CleanPageMaps(addr)` (terminal.cpp:283): read the PML4 entry for
`addr`, zero it, recursively clean the PDP subtree it pointed at, then
free the PDP frame itself.  A non-present PML4 entry reads as a zeroed
pointer, i.e. an empty node in frame 0. -/
def cleanPageMaps (st : MachineState) (addr : LinAddr) : MachineState :=
  let pdp : PMTree :=
    match getEntry st.root.entries (addr.part 4) with
    | some (_, t) => t
    | none => .node 0 []
  let root' := PMTree.node st.root.frame (removeEntry st.root.entries (addr.part 4))
  let free1 := cleanPageMap 3 pdp.entries st.free
  { st with root := root', free := pdp.frame :: free1 }

/-- Embeds `CopyLoadSegments(ehdr, file_buf)` (terminal.cpp:168): compute
`vaddr_min`/`vaddr_max` over the `PT_LOAD` headers, map
`(vaddr_max - vaddr_min + 4095) / 4096` pages starting at `vaddr_min`
(all in `uint64_t` arithmetic), then copy and zero-fill every `PT_LOAD`
segment. -/
def copyLoadSegments (st : MachineState) (file : Nat → Nat) (ehdr : Ehdr) :
    MachineState × Option KError :=
  let vmin := vaddrMinLoop ehdr.phdrs (U64 - 1)
  let vmax := vaddrMaxLoop ehdr.phdrs 0
  let totalRange := (vmax + U64 - vmin % U64) % U64
  let num4k := (totalRange + 4095) % U64 / 4096
  let (st1, err) := setupPageMaps st (LinAddr.ofValue vmin) num4k
  match err with
  | some e => (st1, some e)
  | none => ({ st1 with mem := applyLoads file st1.mem ehdr.phdrs }, none)

/-- Embeds `LoadElf(ehdr, file_buf)` (terminal.cpp:231): reject a non-`ET_EXEC`
type, reject when the first load address is below
`0xffff'8000'0000'0000`, otherwise copy the load segments. -/
def loadElf (st : MachineState) (file : Nat → Nat) (ehdr : Ehdr) :
    MachineState × Option KError :=
  if ehdr.e_type ≠ ET_EXEC then (st, some .kInvalidFormat)
  else
    let addrFirst := getFirstLoadAddress ehdr.phdrs 0
    if addrFirst < 0xffff800000000000 then (st, some .kInvalidFormat)
    else copyLoadSegments st file ehdr

/-- What `Terminal::ExecuteFile` does with the file besides returning an
error: jump to the raw buffer, or call the loaded ELF's entry point. -/
inductive ExecAction where
  | ranRawBlob
  | ranElfEntry (entry : Nat)
deriving DecidableEq

/-- Embeds `Terminal::ExecuteFile` (terminal.cpp:539), after the file has been
read into memory and its first bytes copied into `elf_header_obj`: when
the four identification bytes are not `"\x7fELF"`, the buffer is cast to
a function and CALLED, and `kSuccess` is returned; otherwise `LoadElf`
runs, its error (if any) propagates, and on success the entry point is
called and the page maps are torn down from the first load address. -/
def executeFile (st : MachineState) (file : Nat → Nat) (ehdr : Ehdr) :
    MachineState × List ExecAction × Option KError :=
  if ehdr.e_ident4 ≠ elfMagic then (st, [.ranRawBlob], none)
  else
    match loadElf st file ehdr with
    | (st1, some e) => (st1, [], some e)
    | (st1, none) =>
        let addrFirst := getFirstLoadAddress ehdr.phdrs 0
        let st2 := cleanPageMaps st1 (LinAddr.ofValue addrFirst)
        (st2, [.ranElfEntry ehdr.e_entry], none)

/-- Number of 4 KiB pages mapped below a node whose level is `level`
(present level-1 entries reachable from it). -/
def leavesCount : Nat → Entries → Nat
  | 0, _ => 0
  | 1, es => es.length
  | l + 2, es => (es.map fun e => leavesCount (l + 1) e.2.2.entries).sum

/-- The frames owned by the subtrees hanging off a node of level `level`:
for each present entry, the child's frame, and recursively the child's
subtree frames when above level 1.  These are exactly the frames
`CleanPageMap` frees. -/
def framesOf : Nat → Entries → List Nat
  | 0, es => es.map fun e => e.2.2.frame
  | l + 1, es =>
      (es.map fun e =>
        e.2.2.frame :: (if l = 0 then [] else framesOf l e.2.2.entries)).flatten

/-- Modelled from the spec: the terminal's grid constants `kRows = 15`,
`kColumns = 60` and the line-buffer capacity `kLineMax = 128`
(`terminal.hpp` is not under `src/`; §3 of the spec). -/
def kRows : Int := 15

/-- Modelled from the spec: see `kRows`. -/
def kColumns : Int := 60

/-- Modelled from the spec: see `kRows` (128-byte line buffer). -/
def kLineMax : Nat := 128

/-- The terminal state mutated by `Terminal::InputKey`: the line buffer
(`kLineMax` char codes), the insertion index (`int linebuf_index_`), the
command-history deque (resized to 8 by the constructor), the
history-browsing index (`int cmd_history_index_`, initially -1), and the
cursor. -/
structure TermState where
  linebuf : List Nat
  linebufIndex : Int
  cmdHistory : List (List Nat)
  cmdHistoryIndex : Int
  cursorX : Int
  cursorY : Int
deriving DecidableEq

/-- Pixel-level and control side effects of the terminal code, recorded
in order. -/
inductive TermEffect where
  | drawCursor (visible : Bool)
  | fillRect (x y w h : Int)
  | writeChar (x y : Int) (c : Nat)
  | writeStr (x y : Int) (s : List Nat)
  | moveRows
  | execLine (line : List Nat)
deriving DecidableEq

/-- A dirty rectangle (position and size). -/
structure Rect where
  x : Int
  y : Int
  w : Int
  h : Int
deriving DecidableEq

/-- Embeds `Terminal::CalcCursorPos` (terminal.cpp:330):
`kTopLeftMargin + (4 + 8·x, 4 + 16·y)` with `kTopLeftMargin = (4, 24)`
(window.hpp:98). -/
def calcCursorPos (s : TermState) : Int × Int :=
  (4 + (4 + 8 * s.cursorX), 24 + (4 + 16 * s.cursorY))

/-- Embeds `Terminal::Scroll1` (terminal.cpp:406): move the inner rows up one and
clear the cursor's row; the cursor itself is not moved. -/
def scroll1Effects (s : TermState) : List TermEffect :=
  [.moveRows, .fillRect 4 (4 + 16 * s.cursorY) (8 * kColumns) 16]

/-- The `newline` lambda of `Terminal::Print(char)` (terminal.cpp:587):
column 0, next row, scrolling at the bottom row. -/
def newline (s : TermState) : TermState × List TermEffect :=
  let s1 := { s with cursorX := 0 }
  if s1.cursorY < kRows - 1 then ({ s1 with cursorY := s1.cursorY + 1 }, [])
  else (s1, scroll1Effects s1)

/-- Embeds `Terminal::Print(char)` (terminal.cpp:585). -/
def printChar (s : TermState) (c : Nat) : TermState × List TermEffect :=
  if c = 10 then newline s
  else
    let e := TermEffect.writeChar (calcCursorPos s).1 (calcCursorPos s).2 c
    if s.cursorX = kColumns - 1 then
      let (s', effs) := newline s
      (s', e :: effs)
    else ({ s with cursorX := s.cursorX + 1 }, [e])

/-- The loop of `Terminal::Print(const char*)` (terminal.cpp:618). -/
def printStrLoop (s : TermState) : List Nat → TermState × List TermEffect
  | [] => (s, [])
  | c :: cs =>
      let (s1, e1) := printChar s c
      let (s2, e2) := printStrLoop s1 cs
      (s2, e1 ++ e2)

/-- Embeds `Terminal::Print(const char*)`: cursor off, print every char, cursor
back on. -/
def printStr (s : TermState) (cs : List Nat) : TermState × List TermEffect :=
  let (s1, effs) := printStrLoop s cs
  (s1, .drawCursor false :: effs ++ [.drawCursor true])

/-- Embeds `Terminal::HistoryUpDown(direction)` (terminal.cpp:631). -/
def historyUpDown (s : TermState) (direction : Int) :
    TermState × Rect × List TermEffect :=
  let s1 :=
    if direction = -1 ∧ s.cmdHistoryIndex ≥ 0 then
      { s with cmdHistoryIndex := s.cmdHistoryIndex - 1 }
    else if direction = 1 ∧ s.cmdHistoryIndex + 1 < (s.cmdHistory.length : Int) then
      { s with cmdHistoryIndex := s.cmdHistoryIndex + 1 }
    else s
  let s2 := { s1 with cursorX := 1 }
  let firstPos := calcCursorPos s2
  let rect : Rect := ⟨firstPos.1, firstPos.2, 8 * (kColumns - 1), 16⟩
  let history : List Nat :=
    if s2.cmdHistoryIndex ≥ 0 then s2.cmdHistory.getD s2.cmdHistoryIndex.toNat []
    else []
  let s3 := { s2 with
    linebuf := history ++ 0 :: s2.linebuf.drop (history.length + 1)
    linebufIndex := (history.length : Int) }
  let s4 := { s3 with cursorX := s3.linebufIndex + 1 }
  (s4, rect,
   [.fillRect rect.x rect.y rect.w rect.h, .writeStr firstPos.1 firstPos.2 history])

/-- Embeds `Terminal::InputKey(modifier, keycode, ascii)` (terminal.cpp:336).
`exec` stands for `Terminal::ExecuteLine` (its command dispatch is outside
the scope of this development); it receives the state as left by the
newline handling and returns the state and effects it produces.  The
`.execLine` effect records the line buffer contents passed to it. -/
def inputKey (exec : TermState → TermState × List TermEffect)
    (s : TermState) (keycode ascii : Nat) : TermState × Rect × List TermEffect :=
  let defaultArea : Rect := ⟨(calcCursorPos s).1, (calcCursorPos s).2, 8 * 2, 16⟩
  let (s', area, effs) :=
    if ascii = 10 then
      let s1 := { s with linebuf := s.linebuf.set s.linebufIndex.toNat 0 }
      let line := s1.linebuf.takeWhile (· ≠ 0)
      let s2 :=
        if s.linebufIndex > 0 then
          { s1 with cmdHistory := line :: s1.cmdHistory.dropLast }
        else s1
      let s3 := { s2 with linebufIndex := 0, cmdHistoryIndex := -1, cursorX := 0 }
      let (s4, scrollEffs) :=
        if s3.cursorY < kRows - 1 then ({ s3 with cursorY := s3.cursorY + 1 }, [])
        else (s3, scroll1Effects s3)
      let (s5, execEffs) := exec s4
      let (s6, printEffs) := printStr s5 [62]
      (s6, (⟨4, 24, 8 * kColumns + 8, 16 * kRows + 8⟩ : Rect),
       scrollEffs ++ .execLine (s4.linebuf.takeWhile (· ≠ 0)) :: execEffs ++ printEffs)
    else if ascii = 8 then
      if s.cursorX > 0 then
        let s1 := { s with cursorX := s.cursorX - 1 }
        let pos := calcCursorPos s1
        let s2 :=
          if s.linebufIndex > 0 then { s1 with linebufIndex := s1.linebufIndex - 1 }
          else s1
        (s2, (⟨pos.1, pos.2, 8 * 2, 16⟩ : Rect), [.fillRect pos.1 pos.2 8 16])
      else (s, defaultArea, [])
    else if ascii ≠ 0 then
      if s.cursorX < kColumns - 1 ∧ s.linebufIndex < (kLineMax : Int) - 1 then
        let s1 := { s with
          linebuf := s.linebuf.set s.linebufIndex.toNat ascii
          linebufIndex := s.linebufIndex + 1 }
        let pos := calcCursorPos s1
        let s2 := { s1 with cursorX := s1.cursorX + 1 }
        (s2, defaultArea, [.writeChar pos.1 pos.2 ascii])
      else (s, defaultArea, [])
    else if keycode = 0x51 then historyUpDown s (-1)
    else if keycode = 0x52 then historyUpDown s 1
    else (s, defaultArea, [])
  (s', area, .drawCursor false :: effs ++ [.drawCursor true])

/-- Number of 4 KiB page slots a level-`lvl` walk starting at the indices
encoded in `addr` can still map inside one level-`lvl` subtree (from the
current position to the subtree's end). -/
def cap : Nat → LinAddr → Nat
  | 0, _ => 0
  | 1, a => 512 - a.part 1
  | l + 2, a => (511 - a.part (l + 2)) * 512 ^ (l + 1) + cap (l + 1) a

/-- File bytes used in concrete scenarios. -/
def exampleFile : Nat → Nat := fun a => a % 256 + 1

/-- A machine state with an empty PML4 in frame 0, ten free frames and
virtual memory holding nonzero bytes. -/
def exampleState : MachineState :=
  ⟨.node 0 [], [1, 2, 3, 4, 5, 6, 7, 8, 9, 10], fun _ => 1⟩

/-- Spec scenario 2: an `ET_EXEC` image with two `PT_LOAD` headers at
`0xffff_8000_0000_0000` (memsz 0x1000) and `0xffff_8000_0000_3000`
(memsz 0x1200, filesz 0x800). -/
def exampleElf : Ehdr :=
  ⟨elfMagic, ET_EXEC, 0xffff800000000000,
   [⟨PT_LOAD, 0x1000, 0xffff800000000000, 0x1000, 0x1000⟩,
    ⟨PT_LOAD, 0x2000, 0xffff800000003000, 0x800, 0x1200⟩]⟩

/-- A header parsed from a buffer that does not start with the ELF
magic. -/
def rawBlobHeader : Ehdr := ⟨[0, 0, 0, 0], ET_EXEC, 0x1234, []⟩

/-- A header with the magic but a non-`ET_EXEC` type (`ET_DYN` = 3). -/
def dynHeader : Ehdr := ⟨elfMagic, 3, 0, [⟨PT_LOAD, 0, 0xffff800000000000, 0, 0x1000⟩]⟩

/-- An `ET_EXEC` image whose `PT_LOAD` headers are not in ascending
`p_vaddr` order: the first one is in the upper half, the minimum is not. -/
def outOfOrderElf : Ehdr :=
  ⟨elfMagic, ET_EXEC, 0,
   [⟨PT_LOAD, 0, 0xffff800000001000, 0x1000, 0x1000⟩,
    ⟨PT_LOAD, 0, 0x1000, 0, 0x1000⟩]⟩

/-- A machine state whose frame allocator has nothing left. -/
def emptyFreeState : MachineState := ⟨.node 0 [], [], fun _ => 0⟩

/-- An `ET_EXEC` image with no `PT_LOAD` header at all (one `PT_DYNAMIC`
header, type 2). -/
def noLoadElf : Ehdr := ⟨elfMagic, ET_EXEC, 0, [⟨2, 0, 0, 0, 0⟩]⟩

/-- The all-zero linear address. -/
def addrZero : LinAddr := ⟨0, 0, 0, 0, 0⟩

/-- The last 4 KiB page of PML4 entry 0:
`pdp = pd = pt = 511`.  Mapping two pages from here crosses into PML4
entry 1. -/
def boundaryAddr : LinAddr := ⟨0, 511, 511, 511, 0⟩

/-- A machine state with an empty PML4 in frame 0 and exactly the eight
free frames the boundary-crossing walk needs. -/
def boundaryState : MachineState := ⟨.node 0 [], [1, 2, 3, 4, 5, 6, 7, 8], fun _ => 0⟩

/-- An `ExecuteLine` stand-in that does nothing. -/
def execNop : TermState → TermState × List TermEffect := fun s => (s, [])

/-- The terminal state right after the prompt `">"` has been printed:
empty line buffer, insertion index 0, cursor at column 1. -/
def freshPromptState : TermState :=
  ⟨List.replicate 128 0, 0, List.replicate 8 [], -1, 1, 0⟩

/-- The terminal state after typing `hi` at a fresh prompt. -/
def typedHiState : TermState :=
  ⟨104 :: 105 :: List.replicate 126 0, 2, List.replicate 8 [], -1, 3, 0⟩

/-- A minimal valid `ET_EXEC` image in the upper half (one `PT_LOAD`
header). -/
def upperElf : Ehdr :=
  ⟨elfMagic, ET_EXEC, 0xffff800000000000,
   [⟨PT_LOAD, 0, 0xffff800000000000, 0, 0x1000⟩]⟩

/-- A machine state whose PML4 (frame 0) has entry 0 pointing at a PDP in
frame 7 which has one present entry pointing at a PD in frame 8, plus a
sibling PML4 entry 3 pointing at a PDP in frame 9. -/
def c6State : MachineState :=
  ⟨.node 0 [(0, true, .node 7 [(3, true, .node 8 [])]),
            (3, true, .node 9 [])], [], fun _ => 0⟩

theorem getEntry_setEntry_self (es : Entries) (i : Nat) (w : Bool) (t : PMTree) :
    getEntry (setEntry es i w t) i = some (w, t) := by
  induction es with
  | nil => simp [setEntry, getEntry]
  | cons e rest ih =>
    obtain ⟨j, w0, t0⟩ := e
    by_cases h : j = i
    · simp [setEntry, h, getEntry]
    · simp [setEntry, h, getEntry, ih]

theorem setEntry_eq_append {es : Entries} {i : Nat} (h : getEntry es i = none)
    (w : Bool) (t : PMTree) : setEntry es i w t = es ++ [(i, w, t)] := by
  induction es with
  | nil => simp [setEntry]
  | cons e rest ih =>
    obtain ⟨j, w0, t0⟩ := e
    rw [getEntry] at h
    by_cases hj : j = i
    · simp [hj] at h
    · simp [hj] at h
      simp [setEntry, hj, ih h]

theorem getEntry_decomp {es : Entries} {i : Nat} {w0 : Bool} {t0 : PMTree}
    (h : getEntry es i = some (w0, t0)) :
    ∃ pre post, es = pre ++ (i, w0, t0) :: post ∧ getEntry pre i = none ∧
      ∀ w t, setEntry es i w t = pre ++ (i, w, t) :: post := by
  induction es with
  | nil => simp [getEntry] at h
  | cons e rest ih =>
    obtain ⟨j, wj, tj⟩ := e
    rw [getEntry] at h
    by_cases hj : j = i
    · subst hj
      simp at h
      obtain ⟨hw, ht⟩ := h
      subst hw; subst ht
      exact ⟨[], rest, by simp, by simp [getEntry], fun w t => by simp [setEntry]⟩
    · simp [hj] at h
      obtain ⟨pre, post, h1, h2, h3⟩ := ih h
      refine ⟨(j, wj, tj) :: pre, post, by simp [h1], ?_, fun w t => ?_⟩
      · rw [getEntry]
        simp [hj, h2]
      · simp [setEntry, hj, h3 w t]

theorem getEntry_append_of_none {a : Entries} {i : Nat} (h : getEntry a i = none)
    (b : Entries) : getEntry (a ++ b) i = getEntry b i := by
  induction a with
  | nil => simp
  | cons e rest ih =>
    obtain ⟨j, w, t⟩ := e
    rw [getEntry] at h
    by_cases hj : j = i
    · simp [hj] at h
    · simp [hj] at h
      rw [List.cons_append, getEntry]
      simp [hj, ih h]

theorem framesOf_append (lvl : Nat) (a b : Entries) :
    framesOf lvl (a ++ b) = framesOf lvl a ++ framesOf lvl b := by
  cases lvl with
  | zero => simp [framesOf]
  | succ l => simp [framesOf]

theorem framesOf_cons (l : Nat) (e : Nat × Bool × PMTree) (es : Entries) :
    framesOf (l + 1) (e :: es) =
      (e.2.2.frame :: (if l = 0 then [] else framesOf l e.2.2.entries)) ++
        framesOf (l + 1) es := by
  simp [framesOf]

theorem listMin?_mem : ∀ {free : List Nat} {f : Nat}, listMin? free = some f → f ∈ free := by
  intro free
  induction free with
  | nil => intro f h; simp [listMin?] at h
  | cons x xs ih =>
    intro f h
    rw [listMin?] at h
    cases hxs : listMin? xs with
    | none => simp [hxs] at h; simp [h]
    | some m =>
      simp [hxs] at h
      rcases Nat.le_total x m with hm | hm
      · rw [Nat.min_eq_left hm] at h
        exact h ▸ List.mem_cons_self x xs
      · rw [Nat.min_eq_right hm] at h
        exact List.mem_cons_of_mem x (ih (h ▸ hxs))

theorem allocate1_some {free free' : List Nat} {f : Nat}
    (h : allocate1 free = some (f, free')) : f ∈ free ∧ free' = free.erase f := by
  rw [allocate1] at h
  cases hm : listMin? free with
  | none => simp [hm] at h
  | some m =>
    simp [hm] at h
    obtain ⟨h1, h2⟩ := h
    subst h1
    exact ⟨listMin?_mem hm, h2.symm⟩

theorem allocate1_sub {free free' : List Nat} {f : Nat}
    (h : allocate1 free = some (f, free')) : free' ⊆ free := by
  rw [(allocate1_some h).2]
  exact List.erase_subset f free

theorem allocate1_mem_split {free free' : List Nat} {f : Nat}
    (h : allocate1 free = some (f, free')) :
    ∀ x ∈ free, x = f ∨ x ∈ free' := by
  intro x hx
  by_cases hxf : x = f
  · exact Or.inl hxf
  · right
    rw [(allocate1_some h).2]
    exact (List.mem_erase_of_ne hxf).mpr hx

theorem setupLoop_nil (descend : Entries → LinAddr → Nat → List Nat → SetupRes)
    (lvl : Nat) (es : Entries) (addr : LinAddr) (n : Nat) (free : List Nat) :
    setupLoop descend lvl [] es addr n free = ⟨es, n, free, none⟩ := rfl

theorem setupLoop_zero (descend : Entries → LinAddr → Nat → List Nat → SetupRes)
    (lvl i : Nat) (rest : List Nat) (es : Entries) (addr : LinAddr) (free : List Nat) :
    setupLoop descend lvl (i :: rest) es addr 0 free = ⟨es, 0, free, none⟩ := by
  simp [setupLoop]

theorem setupLoop_cons_fail {es : Entries} {i : Nat} {free : List Nat}
    (descend : Entries → LinAddr → Nat → List Nat → SetupRes) (lvl : Nat)
    (rest : List Nat) (addr : LinAddr) {n : Nat} (hn : n ≠ 0)
    (ha : getEntry es i = none) (hal : allocate1 free = none) :
    setupLoop descend lvl (i :: rest) es addr n free =
      ⟨es, n, free, some .kNoEnoughMemory⟩ := by
  simp [setupLoop, hn, ha, hal]

theorem setupLoop_cons_ensured {es : Entries} {i : Nat} {free free1 : List Nat}
    {child : PMTree}
    (descend : Entries → LinAddr → Nat → List Nat → SetupRes) (lvl : Nat)
    (rest : List Nat) (addr : LinAddr) {n : Nat} (hn : n ≠ 0)
    (hens : (match getEntry es i with
             | some (_, c) => some (c, free)
             | none =>
                 match allocate1 free with
                 | none => none
                 | some (f, free') => some (PMTree.node f [], free')) =
        some (child, free1)) :
    setupLoop descend lvl (i :: rest) es addr n free =
      (if lvl = 1 then
        (if i = 511 then ⟨setEntry es i true child, n - 1, free1, none⟩
         else
           setupLoop descend lvl rest (setEntry es i true child)
             (zeroParts (addr.setPart lvl (i + 1)) (lvl - 1)) (n - 1) free1)
      else
        (let r := descend child.entries addr n free1
         let es2 := setEntry es i true (.node child.frame r.es)
         match r.err with
         | some e => ⟨es2, n, r.free, some e⟩
         | none =>
             if i = 511 then ⟨es2, r.remaining, r.free, none⟩
             else
               setupLoop descend lvl rest es2
                 (zeroParts (addr.setPart lvl (i + 1)) (lvl - 1)) r.remaining r.free)) := by
  rw [setupLoop]
  simp only [hn, if_false, hens]

theorem setupLoop_cons_present {es : Entries} {i : Nat} {w0 : Bool} {c : PMTree}
    {free : List Nat}
    (descend : Entries → LinAddr → Nat → List Nat → SetupRes) (lvl : Nat)
    (rest : List Nat) (addr : LinAddr) {n : Nat} (hn : n ≠ 0)
    (hp : getEntry es i = some (w0, c)) :
    setupLoop descend lvl (i :: rest) es addr n free =
      (if lvl = 1 then
        (if i = 511 then ⟨setEntry es i true c, n - 1, free, none⟩
         else
           setupLoop descend lvl rest (setEntry es i true c)
             (zeroParts (addr.setPart lvl (i + 1)) (lvl - 1)) (n - 1) free)
      else
        (let r := descend c.entries addr n free
         let es2 := setEntry es i true (.node c.frame r.es)
         match r.err with
         | some e => ⟨es2, n, r.free, some e⟩
         | none =>
             if i = 511 then ⟨es2, r.remaining, r.free, none⟩
             else
               setupLoop descend lvl rest es2
                 (zeroParts (addr.setPart lvl (i + 1)) (lvl - 1)) r.remaining r.free)) := by
  exact setupLoop_cons_ensured descend lvl rest addr hn (by simp [hp])

theorem setupLoop_cons_alloc {es : Entries} {i : Nat} {f : Nat}
    {free free' : List Nat}
    (descend : Entries → LinAddr → Nat → List Nat → SetupRes) (lvl : Nat)
    (rest : List Nat) (addr : LinAddr) {n : Nat} (hn : n ≠ 0)
    (ha : getEntry es i = none) (hal : allocate1 free = some (f, free')) :
    setupLoop descend lvl (i :: rest) es addr n free =
      (if lvl = 1 then
        (if i = 511 then ⟨setEntry es i true (.node f []), n - 1, free', none⟩
         else
           setupLoop descend lvl rest (setEntry es i true (.node f []))
             (zeroParts (addr.setPart lvl (i + 1)) (lvl - 1)) (n - 1) free')
      else
        (let r := descend (PMTree.node f []).entries addr n free'
         let es2 := setEntry es i true (.node (PMTree.node f []).frame r.es)
         match r.err with
         | some e => ⟨es2, n, r.free, some e⟩
         | none =>
             if i = 511 then ⟨es2, r.remaining, r.free, none⟩
             else
               setupLoop descend lvl rest es2
                 (zeroParts (addr.setPart lvl (i + 1)) (lvl - 1)) r.remaining r.free)) := by
  exact setupLoop_cons_ensured descend lvl rest addr hn (by simp [ha, hal])

theorem setupLoop_free_sub (descend : Entries → LinAddr → Nat → List Nat → SetupRes)
    (lvl : Nat) (hd : ∀ es a m fr, (descend es a m fr).free ⊆ fr) :
    ∀ (idxs : List Nat) (es : Entries) (addr : LinAddr) (n : Nat) (free : List Nat),
      (setupLoop descend lvl idxs es addr n free).free ⊆ free := by
  intro idxs
  induction idxs generalizing lvl with
  | nil => intro es addr n free; rw [setupLoop_nil]; exact fun x hx => hx
  | cons i rest ih =>
    intro es addr n free
    by_cases hn : n = 0
    · subst hn; rw [setupLoop_zero]; exact fun x hx => hx
    cases hp : getEntry es i with
    | some wc =>
      obtain ⟨w0, c⟩ := wc
      rw [setupLoop_cons_present descend lvl rest addr hn hp]
      by_cases h1 : lvl = 1
      · subst h1
        rw [if_pos rfl]
        by_cases h511 : i = 511
        · subst h511; rw [if_pos rfl]; exact fun x hx => hx
        · rw [if_neg h511]
          exact ih 1 _ _ _ _
      · rw [if_neg h1]
        cases herr : (descend c.entries addr n free).err with
        | some e => simp only [herr]; exact hd _ _ _ _
        | none =>
          simp only [herr]
          by_cases h511 : i = 511
          · subst h511; rw [if_pos rfl]; exact hd _ _ _ _
          · rw [if_neg h511]
            exact (ih lvl _ _ _ _).trans (hd _ _ _ _)
    | none =>
      cases hal : allocate1 free with
      | none =>
        rw [setupLoop_cons_fail descend lvl rest addr hn hp hal]
        exact fun x hx => hx
      | some ffree =>
        obtain ⟨f, free'⟩ := ffree
        rw [setupLoop_cons_alloc descend lvl rest addr hn hp hal]
        by_cases h1 : lvl = 1
        · subst h1
          rw [if_pos rfl]
          by_cases h511 : i = 511
          · subst h511; rw [if_pos rfl]
            exact allocate1_sub hal
          · rw [if_neg h511]
            exact (ih 1 _ _ _ _).trans (allocate1_sub hal)
        · rw [if_neg h1]
          cases herr : (descend (PMTree.node f []).entries addr n free').err with
          | some e =>
            simp only [herr]
            exact (hd _ _ _ _).trans (allocate1_sub hal)
          | none =>
            simp only [herr]
            by_cases h511 : i = 511
            · subst h511; rw [if_pos rfl]
              exact (hd _ _ _ _).trans (allocate1_sub hal)
            · rw [if_neg h511]
              exact ((ih lvl _ _ _ _).trans (hd _ _ _ _)).trans (allocate1_sub hal)

theorem setupPageMap_free_sub :
    ∀ (lvl : Nat) (es : Entries) (addr : LinAddr) (n : Nat) (free : List Nat),
      (setupPageMap lvl es addr n free).free ⊆ free := by
  intro lvl
  induction lvl with
  | zero => intro es addr n free; rw [setupPageMap]; exact fun x hx => hx
  | succ l ih =>
    intro es addr n free
    exact setupLoop_free_sub (setupPageMap l) (l + 1) (fun es a m fr => ih es a m fr) _ _ _ _ _

theorem setupLoop_err_kind (descend : Entries → LinAddr → Nat → List Nat → SetupRes)
    (lvl : Nat)
    (hd : ∀ es a m fr e, (descend es a m fr).err = some e → e = .kNoEnoughMemory) :
    ∀ (idxs : List Nat) (es : Entries) (addr : LinAddr) (n : Nat) (free : List Nat) (e : KError),
      (setupLoop descend lvl idxs es addr n free).err = some e → e = .kNoEnoughMemory := by
  intro idxs
  induction idxs generalizing lvl with
  | nil => intro es addr n free e h; rw [setupLoop_nil] at h; simp at h
  | cons i rest ih =>
    intro es addr n free e h
    by_cases hn : n = 0
    · subst hn; rw [setupLoop_zero] at h; simp at h
    cases hp : getEntry es i with
    | some wc =>
      obtain ⟨w0, c⟩ := wc
      rw [setupLoop_cons_present descend lvl rest addr hn hp] at h
      by_cases h1 : lvl = 1
      · subst h1
        rw [if_pos rfl] at h
        by_cases h511 : i = 511
        · subst h511; rw [if_pos rfl] at h; simp at h
        · rw [if_neg h511] at h
          exact ih 1 _ _ _ _ _ h
      · rw [if_neg h1] at h
        cases herr : (descend c.entries addr n free).err with
        | some e0 =>
          simp only [herr] at h
          simp at h
          exact h ▸ hd _ _ _ _ _ herr
        | none =>
          simp only [herr] at h
          by_cases h511 : i = 511
          · subst h511; rw [if_pos rfl] at h; simp at h
          · rw [if_neg h511] at h
            exact ih lvl _ _ _ _ _ h
    | none =>
      cases hal : allocate1 free with
      | none =>
        rw [setupLoop_cons_fail descend lvl rest addr hn hp hal] at h
        simp at h
        exact h.symm
      | some ffree =>
        obtain ⟨f, free'⟩ := ffree
        rw [setupLoop_cons_alloc descend lvl rest addr hn hp hal] at h
        by_cases h1 : lvl = 1
        · subst h1
          rw [if_pos rfl] at h
          by_cases h511 : i = 511
          · subst h511; rw [if_pos rfl] at h; simp at h
          · rw [if_neg h511] at h
            exact ih 1 _ _ _ _ _ h
        · rw [if_neg h1] at h
          cases herr : (descend (PMTree.node f []).entries addr n free').err with
          | some e0 =>
            simp only [herr] at h
            simp at h
            exact h ▸ hd _ _ _ _ _ herr
          | none =>
            simp only [herr] at h
            by_cases h511 : i = 511
            · subst h511; rw [if_pos rfl] at h; simp at h
            · rw [if_neg h511] at h
              exact ih lvl _ _ _ _ _ h

theorem setupPageMap_err_kind :
    ∀ (lvl : Nat) (es : Entries) (addr : LinAddr) (n : Nat) (free : List Nat) (e : KError),
      (setupPageMap lvl es addr n free).err = some e → e = .kNoEnoughMemory := by
  intro lvl
  induction lvl with
  | zero => intro es addr n free e h; rw [setupPageMap] at h; simp at h
  | succ l ih =>
    intro es addr n free e h
    exact setupLoop_err_kind (setupPageMap l) (l + 1)
      (fun es a m fr e0 => ih es a m fr e0) _ _ _ _ _ _ h

theorem setupLoop_remaining_le (descend : Entries → LinAddr → Nat → List Nat → SetupRes)
    (lvl : Nat) (hd : ∀ es a m fr, (descend es a m fr).remaining ≤ m) :
    ∀ (idxs : List Nat) (es : Entries) (addr : LinAddr) (n : Nat) (free : List Nat),
      (setupLoop descend lvl idxs es addr n free).remaining ≤ n := by
  intro idxs
  induction idxs generalizing lvl with
  | nil => intro es addr n free; rw [setupLoop_nil]
  | cons i rest ih =>
    intro es addr n free
    by_cases hn : n = 0
    · subst hn; rw [setupLoop_zero]
    cases hp : getEntry es i with
    | some wc =>
      obtain ⟨w0, c⟩ := wc
      rw [setupLoop_cons_present descend lvl rest addr hn hp]
      by_cases h1 : lvl = 1
      · subst h1
        rw [if_pos rfl]
        by_cases h511 : i = 511
        · subst h511; rw [if_pos rfl]; exact Nat.sub_le n 1
        · rw [if_neg h511]
          exact (ih 1 _ _ _ _).trans (Nat.sub_le n 1)
      · rw [if_neg h1]
        cases herr : (descend c.entries addr n free).err with
        | some e => simp only [herr]; exact Nat.le_refl n
        | none =>
          simp only [herr]
          by_cases h511 : i = 511
          · subst h511; rw [if_pos rfl]; exact hd _ _ _ _
          · rw [if_neg h511]
            exact (ih lvl _ _ _ _).trans (hd _ _ _ _)
    | none =>
      cases hal : allocate1 free with
      | none =>
        rw [setupLoop_cons_fail descend lvl rest addr hn hp hal]
      | some ffree =>
        obtain ⟨f, free'⟩ := ffree
        rw [setupLoop_cons_alloc descend lvl rest addr hn hp hal]
        by_cases h1 : lvl = 1
        · subst h1
          rw [if_pos rfl]
          by_cases h511 : i = 511
          · subst h511; rw [if_pos rfl]; exact Nat.sub_le n 1
          · rw [if_neg h511]
            exact (ih 1 _ _ _ _).trans (Nat.sub_le n 1)
        · rw [if_neg h1]
          cases herr : (descend (PMTree.node f []).entries addr n free').err with
          | some e => simp only [herr]; exact Nat.le_refl n
          | none =>
            simp only [herr]
            by_cases h511 : i = 511
            · subst h511; rw [if_pos rfl]; exact hd _ _ _ _
            · rw [if_neg h511]
              exact (ih lvl _ _ _ _).trans (hd _ _ _ _)

theorem setupPageMap_remaining_le :
    ∀ (lvl : Nat) (es : Entries) (addr : LinAddr) (n : Nat) (free : List Nat),
      (setupPageMap lvl es addr n free).remaining ≤ n := by
  intro lvl
  induction lvl with
  | zero => intro es addr n free; rw [setupPageMap]
  | succ l ih =>
    intro es addr n free
    exact setupLoop_remaining_le (setupPageMap l) (l + 1) (fun es a m fr => ih es a m fr) _ _ _ _ _

theorem setupLoop_stop (descend : Entries → LinAddr → Nat → List Nat → SetupRes)
    (lvl : Nat) :
    ∀ (idxs : List Nat) (es : Entries) (addr : LinAddr) (n : Nat) (free : List Nat),
      511 ∈ idxs →
      (setupLoop descend lvl idxs es addr n free).err = none →
      (setupLoop descend lvl idxs es addr n free).remaining = 0 ∨
        getEntry (setupLoop descend lvl idxs es addr n free).es 511 ≠ none := by
  intro idxs
  induction idxs generalizing lvl with
  | nil => intro es addr n free hm; simp at hm
  | cons i rest ih =>
    intro es addr n free hm herr0
    by_cases hn : n = 0
    · subst hn; rw [setupLoop_zero]; exact Or.inl rfl
    cases hp : getEntry es i with
    | some wc =>
      obtain ⟨w0, c⟩ := wc
      rw [setupLoop_cons_present descend lvl rest addr hn hp] at herr0 ⊢
      by_cases h1 : lvl = 1
      · subst h1
        rw [if_pos rfl] at herr0 ⊢
        by_cases h511 : i = 511
        · subst h511
          rw [if_pos rfl]
          right
          simp [getEntry_setEntry_self]
        · rw [if_neg h511] at herr0 ⊢
          have hm' : 511 ∈ rest := by
            rcases List.mem_cons.mp hm with h | h
            · omega
            · exact h
          exact ih 1 _ _ _ _ hm' herr0
      · rw [if_neg h1] at herr0 ⊢
        cases herr : (descend c.entries addr n free).err with
        | some e => simp only [herr] at herr0; simp at herr0
        | none =>
          simp only [herr] at herr0 ⊢
          by_cases h511 : i = 511
          · subst h511
            rw [if_pos rfl]
            right
            simp [getEntry_setEntry_self]
          · rw [if_neg h511] at herr0 ⊢
            have hm' : 511 ∈ rest := by
              rcases List.mem_cons.mp hm with h | h
              · omega
              · exact h
            exact ih lvl _ _ _ _ hm' herr0
    | none =>
      cases hal : allocate1 free with
      | none =>
        rw [setupLoop_cons_fail descend lvl rest addr hn hp hal] at herr0
        simp at herr0
      | some ffree =>
        obtain ⟨f, free'⟩ := ffree
        rw [setupLoop_cons_alloc descend lvl rest addr hn hp hal] at herr0 ⊢
        by_cases h1 : lvl = 1
        · subst h1
          rw [if_pos rfl] at herr0 ⊢
          by_cases h511 : i = 511
          · subst h511
            rw [if_pos rfl]
            right
            simp [getEntry_setEntry_self]
          · rw [if_neg h511] at herr0 ⊢
            have hm' : 511 ∈ rest := by
              rcases List.mem_cons.mp hm with h | h
              · omega
              · exact h
            exact ih 1 _ _ _ _ hm' herr0
        · rw [if_neg h1] at herr0 ⊢
          cases herr : (descend (PMTree.node f []).entries addr n free').err with
          | some e => simp only [herr] at herr0; simp at herr0
          | none =>
            simp only [herr] at herr0 ⊢
            by_cases h511 : i = 511
            · subst h511
              rw [if_pos rfl]
              right
              simp [getEntry_setEntry_self]
            · rw [if_neg h511] at herr0 ⊢
              have hm' : 511 ∈ rest := by
                rcases List.mem_cons.mp hm with h | h
                · omega
                · exact h
              exact ih lvl _ _ _ _ hm' herr0

theorem setEntry_length_ge (es : Entries) (i : Nat) (w : Bool) (t : PMTree) :
    es.length ≤ (setEntry es i w t).length := by
  induction es with
  | nil => simp [setEntry]
  | cons e rest ih =>
    obtain ⟨j, w0, t0⟩ := e
    by_cases hj : j = i
    · simp [setEntry, hj]
    · simp only [setEntry, if_neg hj, List.length_cons]
      omega

theorem setupLoop_lvl1_es_length (descend : Entries → LinAddr → Nat → List Nat → SetupRes) :
    ∀ (idxs : List Nat) (es : Entries) (addr : LinAddr) (n : Nat) (free : List Nat),
      es.length ≤ (setupLoop descend 1 idxs es addr n free).es.length := by
  intro idxs
  induction idxs with
  | nil => intro es addr n free; rw [setupLoop_nil]
  | cons i rest ih =>
    intro es addr n free
    by_cases hn : n = 0
    · subst hn; rw [setupLoop_zero]
    cases hp : getEntry es i with
    | some wc =>
      obtain ⟨w0, c⟩ := wc
      rw [setupLoop_cons_present descend 1 rest addr hn hp, if_pos rfl]
      by_cases h511 : i = 511
      · subst h511; rw [if_pos rfl]
        exact setEntry_length_ge es 511 true c
      · rw [if_neg h511]
        exact (setEntry_length_ge es i true c).trans (ih _ _ _ _)
    | none =>
      cases hal : allocate1 free with
      | none =>
        rw [setupLoop_cons_fail descend 1 rest addr hn hp hal]
      | some ffree =>
        obtain ⟨f, free'⟩ := ffree
        rw [setupLoop_cons_alloc descend 1 rest addr hn hp hal, if_pos rfl]
        by_cases h511 : i = 511
        · subst h511; rw [if_pos rfl]
          exact setEntry_length_ge es 511 true _
        · rw [if_neg h511]
          exact (setEntry_length_ge es i true _).trans (ih _ _ _ _)

theorem setupLoop_lvl1_fresh (descend : Entries → LinAddr → Nat → List Nat → SetupRes) :
    ∀ (idxs : List Nat) (es : Entries) (addr : LinAddr) (n : Nat) (free : List Nat)
      (e : KError),
      (∀ j ∈ idxs, getEntry es j = none) → idxs.Nodup →
      (setupLoop descend 1 idxs es addr n free).err = some e →
      (setupLoop descend 1 idxs es addr n free).remaining =
        n - ((setupLoop descend 1 idxs es addr n free).es.length - es.length) := by
  intro idxs
  induction idxs with
  | nil => intro es addr n free e _ _ h; rw [setupLoop_nil] at h; simp at h
  | cons i rest ih =>
    intro es addr n free e habs hnd herr0
    by_cases hn : n = 0
    · subst hn; rw [setupLoop_zero] at herr0; simp at herr0
    have hai : getEntry es i = none := habs i (List.mem_cons_self i rest)
    cases hal : allocate1 free with
    | none =>
      rw [setupLoop_cons_fail descend 1 rest addr hn hai hal] at herr0 ⊢
      simp
    | some ffree =>
      obtain ⟨f, free'⟩ := ffree
      rw [setupLoop_cons_alloc descend 1 rest addr hn hai hal, if_pos rfl] at herr0 ⊢
      by_cases h511 : i = 511
      · subst h511
        rw [if_pos rfl] at herr0
        simp at herr0
      · rw [if_neg h511] at herr0 ⊢
        have hset : setEntry es i true (PMTree.node f []) = es ++ [(i, true, .node f [])] :=
          setEntry_eq_append hai true _
        have habs' : ∀ j ∈ rest, getEntry (setEntry es i true (PMTree.node f [])) j = none := by
          intro j hj
          have hji : j ≠ i := by
            intro hcon
            subst hcon
            exact (List.nodup_cons.mp hnd).1 hj
          rw [hset, getEntry_append_of_none (habs j (List.mem_cons_of_mem i hj))]
          simp [getEntry, Ne.symm hji]
        have hlen : (setEntry es i true (PMTree.node f [])).length = es.length + 1 := by
          rw [hset]; simp
        have key := ih (setEntry es i true (PMTree.node f []))
          (zeroParts (addr.setPart 1 (i + 1)) (1 - 1)) (n - 1) free' e habs'
          (List.nodup_cons.mp hnd).2 herr0
        have hmono := setupLoop_lvl1_es_length descend rest
          (setEntry es i true (PMTree.node f []))
          (zeroParts (addr.setPart 1 (i + 1)) (1 - 1)) (n - 1) free'
        rw [hlen] at key hmono
        omega

theorem framesOf_setEntry_present_eq {es : Entries} {i : Nat} {w0 : Bool} {c : PMTree}
    (hp : getEntry es i = some (w0, c)) (lvl : Nat) (w : Bool) :
    framesOf lvl (setEntry es i w c) = framesOf lvl es := by
  obtain ⟨pre, post, hes, -, hset⟩ := getEntry_decomp hp
  rw [hset w c, hes]
  cases lvl with
  | zero => simp [framesOf]
  | succ l => rw [framesOf_append, framesOf_append, framesOf_cons, framesOf_cons]

theorem mem_framesOf_entry {es : Entries} {i : Nat} {w : Bool} {t : PMTree}
    (hin : (i, w, t) ∈ es) {l : Nat} {x : Nat}
    (hx : x = t.frame ∨ (l ≠ 0 ∧ x ∈ framesOf l t.entries)) :
    x ∈ framesOf (l + 1) es := by
  rw [framesOf]
  rw [List.mem_flatten]
  refine ⟨t.frame :: (if l = 0 then [] else framesOf l t.entries), ?_, ?_⟩
  · exact List.mem_map.mpr ⟨(i, w, t), hin, rfl⟩
  · rcases hx with h | ⟨hl, h⟩
    · exact h ▸ List.mem_cons_self _ _
    · rw [if_neg hl]
      exact List.mem_cons_of_mem _ h

theorem mem_setEntry_self (es : Entries) (i : Nat) (w : Bool) (t : PMTree) :
    (i, w, t) ∈ setEntry es i w t := by
  induction es with
  | nil => simp [setEntry]
  | cons e rest ih =>
    obtain ⟨j, w0, t0⟩ := e
    by_cases hj : j = i
    · simp [setEntry, hj]
    · simp only [setEntry, if_neg hj]
      exact List.mem_cons_of_mem _ ih

theorem framesOf_append_sub_left {l : Nat} {a b : Entries} {x : Nat}
    (h : x ∈ framesOf l a) : x ∈ framesOf l (a ++ b) := by
  rw [framesOf_append]
  exact List.mem_append_left _ h

theorem setupLoop_inv (descend : Entries → LinAddr → Nat → List Nat → SetupRes)
    (l : Nat)
    (hd : ∀ es a m fr x, (x ∈ fr ∨ x ∈ framesOf l es) →
      x ∈ (descend es a m fr).free ∨ x ∈ framesOf l (descend es a m fr).es) :
    ∀ (idxs : List Nat) (es : Entries) (addr : LinAddr) (n : Nat) (free : List Nat)
      (x : Nat), (x ∈ free ∨ x ∈ framesOf (l + 1) es) →
      x ∈ (setupLoop descend (l + 1) idxs es addr n free).free ∨
        x ∈ framesOf (l + 1) (setupLoop descend (l + 1) idxs es addr n free).es := by
  intro idxs
  induction idxs with
  | nil => intro es addr n free x hx; rw [setupLoop_nil]; exact hx
  | cons i rest ih =>
    intro es addr n free x hx
    by_cases hn : n = 0
    · subst hn; rw [setupLoop_zero]; exact hx
    cases hp : getEntry es i with
    | some wc =>
      obtain ⟨w0, c⟩ := wc
      rw [setupLoop_cons_present descend (l + 1) rest addr hn hp]
      by_cases h1 : l + 1 = 1
      · have hl0 : l = 0 := by omega
        subst hl0
        rw [if_pos rfl]
        have hx1 : x ∈ free ∨ x ∈ framesOf 1 (setEntry es i true c) := by
          rcases hx with h | h
          · exact Or.inl h
          · exact Or.inr ((framesOf_setEntry_present_eq hp 1 true).symm ▸ h)
        by_cases h511 : i = 511
        · subst h511; rw [if_pos rfl]; exact hx1
        · rw [if_neg h511]
          exact ih _ _ _ _ _ hx1
      · rw [if_neg h1]
        have hl : l ≠ 0 := by omega
        obtain ⟨pre, post, hes, hpre, hset⟩ := getEntry_decomp hp
        have hes2 : setEntry es i true
            (PMTree.node c.frame (descend c.entries addr n free).es) =
            pre ++ (i, true,
              PMTree.node c.frame (descend c.entries addr n free).es) :: post :=
          hset true _
        have hmid : x ∈ (descend c.entries addr n free).free ∨
            x ∈ framesOf (l + 1) (setEntry es i true
              (PMTree.node c.frame (descend c.entries addr n free).es)) := by
          rcases hx with h | h
          · rcases hd c.entries addr n free x (Or.inl h) with h2 | h2
            · exact Or.inl h2
            · right
              rw [hes2, framesOf_append, framesOf_cons]
              apply List.mem_append_right
              apply List.mem_append_left
              refine List.mem_cons.mpr (Or.inr ?_)
              rw [if_neg hl]
              exact h2
          · rw [hes, framesOf_append, framesOf_cons] at h
            rw [hes2, framesOf_append, framesOf_cons]
            rcases List.mem_append.mp h with h2 | h2
            · exact Or.inr (List.mem_append_left _ h2)
            rcases List.mem_append.mp h2 with h3 | h3
            · rcases List.mem_cons.mp h3 with h4 | h4
              · right
                apply List.mem_append_right
                apply List.mem_append_left
                exact List.mem_cons.mpr (Or.inl h4)
              · rw [if_neg hl] at h4
                rcases hd c.entries addr n free x (Or.inr h4) with h5 | h5
                · exact Or.inl h5
                · right
                  apply List.mem_append_right
                  apply List.mem_append_left
                  refine List.mem_cons.mpr (Or.inr ?_)
                  rw [if_neg hl]
                  exact h5
            · right
              apply List.mem_append_right
              exact List.mem_append_right _ h3
        cases herr : (descend c.entries addr n free).err with
        | some e => simp only [herr]; exact hmid
        | none =>
          simp only [herr]
          by_cases h511 : i = 511
          · subst h511; rw [if_pos rfl]; exact hmid
          · rw [if_neg h511]
            exact ih _ _ _ _ _ hmid
    | none =>
      cases hal : allocate1 free with
      | none =>
        rw [setupLoop_cons_fail descend (l + 1) rest addr hn hp hal]
        exact hx
      | some ffree =>
        obtain ⟨f, free'⟩ := ffree
        rw [setupLoop_cons_alloc descend (l + 1) rest addr hn hp hal]
        have hes1 : ∀ t : PMTree, setEntry es i true t = es ++ [(i, true, t)] :=
          fun t => setEntry_eq_append hp true t
        by_cases h1 : l + 1 = 1
        · have hl0 : l = 0 := by omega
          subst hl0
          rw [if_pos rfl]
          have hx1 : x ∈ free' ∨ x ∈ framesOf 1 (setEntry es i true (PMTree.node f [])) := by
            rcases hx with h | h
            · rcases allocate1_mem_split hal x h with h2 | h2
              · right
                rw [hes1, framesOf_append]
                apply List.mem_append_right
                simp [framesOf, PMTree.frame, h2]
              · exact Or.inl h2
            · right
              rw [hes1]
              exact framesOf_append_sub_left h
          by_cases h511 : i = 511
          · subst h511; rw [if_pos rfl]; exact hx1
          · rw [if_neg h511]
            exact ih _ _ _ _ _ hx1
        · rw [if_neg h1]
          have hl : l ≠ 0 := by omega
          have hmid : x ∈ (descend (PMTree.node f []).entries addr n free').free ∨
              x ∈ framesOf (l + 1) (setEntry es i true
                (PMTree.node (PMTree.node f []).frame
                  (descend (PMTree.node f []).entries addr n free').es)) := by
            rcases hx with h | h
            · rcases allocate1_mem_split hal x h with h2 | h2
              · right
                rw [hes1, framesOf_append, framesOf_cons]
                apply List.mem_append_right
                apply List.mem_append_left
                exact List.mem_cons.mpr (Or.inl h2)
              · rcases hd (PMTree.node f []).entries addr n free' x (Or.inl h2) with h3 | h3
                · exact Or.inl h3
                · right
                  rw [hes1, framesOf_append, framesOf_cons]
                  apply List.mem_append_right
                  apply List.mem_append_left
                  refine List.mem_cons.mpr (Or.inr ?_)
                  rw [if_neg hl]
                  exact h3
            · right
              rw [hes1]
              exact framesOf_append_sub_left h
          cases herr : (descend (PMTree.node f []).entries addr n free').err with
          | some e => simp only [herr]; exact hmid
          | none =>
            simp only [herr]
            by_cases h511 : i = 511
            · subst h511; rw [if_pos rfl]; exact hmid
            · rw [if_neg h511]
              exact ih _ _ _ _ _ hmid

theorem setupPageMap_inv :
    ∀ (lvl : Nat) (es : Entries) (addr : LinAddr) (n : Nat) (free : List Nat) (x : Nat),
      (x ∈ free ∨ x ∈ framesOf lvl es) →
      x ∈ (setupPageMap lvl es addr n free).free ∨
        x ∈ framesOf lvl (setupPageMap lvl es addr n free).es := by
  intro lvl
  induction lvl with
  | zero => intro es addr n free x hx; rw [setupPageMap]; exact hx
  | succ l ih =>
    intro es addr n free x hx
    exact setupLoop_inv (setupPageMap l) l (fun es a m fr y hy => ih es a m fr y hy)
      _ _ _ _ _ _ hx

theorem cleanEntries_mono (cleanChild : Entries → List Nat → List Nat) (doRec : Bool)
    (h : ∀ ces fr, fr ⊆ cleanChild ces fr) :
    ∀ (es : Entries) (free : List Nat), free ⊆ cleanEntries cleanChild doRec es free := by
  intro es
  induction es with
  | nil => intro free; rw [cleanEntries]; exact fun x hx => hx
  | cons e rest ih =>
    intro free
    obtain ⟨j, w, t⟩ := e
    cases t with
    | node f ces =>
      rw [cleanEntries]
      refine fun x hx => ih _ ?_
      apply List.mem_cons_of_mem
      by_cases hdr : doRec
      · simp only [hdr, if_true]
        exact h ces free hx
      · simp only [hdr, if_false]
        exact hx

theorem cleanPageMap_mono :
    ∀ (lvl : Nat) (es : Entries) (free : List Nat), free ⊆ cleanPageMap lvl es free := by
  intro lvl
  induction lvl with
  | zero =>
    intro es free
    rw [cleanPageMap]
    exact cleanEntries_mono _ _ (fun ces fr x hx => hx) es free
  | succ l ih =>
    intro es free
    rw [cleanPageMap]
    exact cleanEntries_mono _ _ (fun ces fr => ih ces fr) es free

theorem cleanPageMap_collect :
    ∀ (l : Nat) (es : Entries) (free : List Nat) (x : Nat),
      x ∈ framesOf (l + 1) es → x ∈ cleanPageMap (l + 1) es free := by
  intro l
  induction l with
  | zero =>
    intro es
    induction es with
    | nil => intro free x hx; simp [framesOf] at hx
    | cons e rest ih =>
      intro free x hx
      obtain ⟨j, w, t⟩ := e
      cases t with
      | node f ces =>
        rw [framesOf_cons, if_pos rfl] at hx
        simp only [cleanPageMap] at ih ⊢
        rw [cleanEntries]
        rcases List.mem_append.mp hx with h1 | h1
        · rcases List.mem_cons.mp h1 with h2 | h2
          · apply cleanEntries_mono _ _ (fun ces fr => cleanPageMap_mono 0 ces fr)
            exact h2 ▸ List.mem_cons_self _ _
          · simp at h2
        · exact ih _ _ h1
  | succ l ih =>
    intro es
    induction es with
    | nil => intro free x hx; simp [framesOf] at hx
    | cons e rest ihes =>
      intro free x hx
      obtain ⟨j, w, t⟩ := e
      cases t with
      | node f ces =>
        rw [framesOf_cons, if_neg (by omega : ¬l + 1 = 0)] at hx
        simp only [cleanPageMap] at ihes ⊢
        rw [cleanEntries]
        have hdr : decide (0 < l + 1) = true := decide_eq_true (Nat.succ_pos l)
        rcases List.mem_append.mp hx with h1 | h1
        · rcases List.mem_cons.mp h1 with h2 | h2
          · apply cleanEntries_mono _ _ (fun ces fr => cleanPageMap_mono (l + 1) ces fr)
            exact h2 ▸ List.mem_cons_self _ _
          · apply cleanEntries_mono _ _ (fun ces fr => cleanPageMap_mono (l + 1) ces fr)
            apply List.mem_cons_of_mem
            rw [hdr, if_pos rfl]
            exact ih ces free x h2
        · exact ihes _ _ h1

theorem getEntry_removeEntry_self (es : Entries) (i : Nat) :
    getEntry (removeEntry es i) i = none := by
  induction es with
  | nil => simp [removeEntry, getEntry]
  | cons e rest ih =>
    obtain ⟨j, w, t⟩ := e
    rw [removeEntry, List.filter_cons]
    by_cases hj : j = i
    · rw [if_neg (by simp [hj])]
      exact ih
    · rw [if_pos (by simp [hj])]
      rw [getEntry, if_neg hj]
      exact ih

theorem getEntry_removeEntry_other (es : Entries) {i j : Nat} (hij : j ≠ i) :
    getEntry (removeEntry es i) j = getEntry es j := by
  induction es with
  | nil => simp [removeEntry]
  | cons e rest ih =>
    obtain ⟨k, w, t⟩ := e
    rw [removeEntry, List.filter_cons]
    by_cases hk : k = i
    · rw [if_neg (by simp [hk])]
      rw [getEntry]
      subst hk
      rw [if_neg (Ne.symm hij)]
      exact ih
    · rw [if_pos (by simp [hk])]
      rw [getEntry, getEntry]
      by_cases hkj : k = j
      · simp [hkj]
      · rw [if_neg hkj, if_neg hkj]
        exact ih

theorem part_one_lt (a : LinAddr) : a.part 1 < 512 := by
  simp only [LinAddr.part]
  omega

theorem part_two_lt (a : LinAddr) : a.part 2 < 512 := by
  simp only [LinAddr.part]
  omega

theorem part_three_lt (a : LinAddr) : a.part 3 < 512 := by
  simp only [LinAddr.part]
  omega

theorem advance_one (a : LinAddr) (v : Nat) (hv : v < 512) :
    (zeroParts (a.setPart 1 v) (1 - 1)).part 1 = v := by
  simp only [zeroParts, LinAddr.setPart, LinAddr.part]
  omega

theorem advance_two_same (a : LinAddr) (v : Nat) (hv : v < 512) :
    (zeroParts (a.setPart 2 v) (2 - 1)).part 2 = v := by
  simp only [zeroParts, LinAddr.setPart, LinAddr.part]
  omega

theorem advance_two_low (a : LinAddr) (v : Nat) :
    (zeroParts (a.setPart 2 v) (2 - 1)).part 1 = 0 := by
  simp only [zeroParts, LinAddr.setPart, LinAddr.part]

theorem advance_three_same (a : LinAddr) (v : Nat) (hv : v < 512) :
    (zeroParts (a.setPart 3 v) (3 - 1)).part 3 = v := by
  simp only [zeroParts, LinAddr.setPart, LinAddr.part]
  omega

theorem advance_three_mid (a : LinAddr) (v : Nat) :
    (zeroParts (a.setPart 3 v) (3 - 1)).part 2 = 0 := by
  simp only [zeroParts, LinAddr.setPart, LinAddr.part]

theorem advance_three_low (a : LinAddr) (v : Nat) :
    (zeroParts (a.setPart 3 v) (3 - 1)).part 1 = 0 := by
  simp only [zeroParts, LinAddr.setPart, LinAddr.part]

theorem cap_one (a : LinAddr) : cap 1 a = 512 - a.part 1 := rfl

theorem cap_two (a : LinAddr) :
    cap 2 a = (511 - a.part 2) * 512 + (512 - a.part 1) := by
  show (511 - a.part 2) * 512 ^ 1 + cap 1 a = _
  rw [pow_one, cap_one]

theorem cap_three (a : LinAddr) :
    cap 3 a = (511 - a.part 3) * 262144 + ((511 - a.part 2) * 512 + (512 - a.part 1)) := by
  show (511 - a.part 3) * 512 ^ 2 + cap 2 a = _
  rw [cap_two]
  norm_num

theorem setupLoop_lvl1_progress (descend : Entries → LinAddr → Nat → List Nat → SetupRes) :
    ∀ (idxs : List Nat) (es : Entries) (addr : LinAddr) (n : Nat) (free : List Nat),
      idxs = List.range' (addr.part 1) (512 - addr.part 1) →
      (setupLoop descend 1 idxs es addr n free).err = none →
      (setupLoop descend 1 idxs es addr n free).remaining = n - min n (512 - addr.part 1) := by
  intro idxs
  induction idxs with
  | nil =>
    intro es addr n free hidxs herr0
    have hlt := part_one_lt addr
    have hz : 512 - addr.part 1 = 0 := by
      have h := hidxs.symm
      rwa [List.range'_eq_nil] at h
    omega
  | cons i rest ih =>
    intro es addr n free hidxs herr0
    have hlt := part_one_lt addr
    have h52 : 512 - addr.part 1 = (511 - addr.part 1) + 1 := by omega
    rw [h52, List.range'_succ] at hidxs
    have hi : i = addr.part 1 := by
      have := congrArg (fun l => l.head?) hidxs
      simpa using this
    have hrest : rest = List.range' (addr.part 1 + 1) (511 - addr.part 1) := by
      have := congrArg (fun l => l.tail) hidxs
      simpa using this
    by_cases hn : n = 0
    · subst hn
      rw [setupLoop_zero] at herr0 ⊢
      simp
    have key : ∀ (es1 : Entries) (free1 : List Nat),
        ¬i = 511 →
        (setupLoop descend 1 rest es1
          (zeroParts (addr.setPart 1 (i + 1)) (1 - 1)) (n - 1) free1).err = none →
        (setupLoop descend 1 rest es1
          (zeroParts (addr.setPart 1 (i + 1)) (1 - 1)) (n - 1) free1).remaining =
          n - min n (512 - addr.part 1) := by
      intro es1 free1 h511 herr1
      have hv : i + 1 < 512 := by omega
      have hpart : (zeroParts (addr.setPart 1 (i + 1)) (1 - 1)).part 1 = i + 1 :=
        advance_one addr (i + 1) hv
      have hrest1 : rest = List.range'
          ((zeroParts (addr.setPart 1 (i + 1)) (1 - 1)).part 1)
          (512 - (zeroParts (addr.setPart 1 (i + 1)) (1 - 1)).part 1) := by
        rw [hpart, hrest, hi]
        congr 1
        omega
      have := ih es1 (zeroParts (addr.setPart 1 (i + 1)) (1 - 1)) (n - 1) free1 hrest1 herr1
      rw [hpart] at this
      rw [this]
      omega
    cases hp : getEntry es i with
    | some wc =>
      obtain ⟨w0, c⟩ := wc
      rw [setupLoop_cons_present descend 1 rest addr hn hp, if_pos rfl] at herr0 ⊢
      by_cases h511 : i = 511
      · rw [if_pos h511] at herr0 ⊢
        simp only [SetupRes.remaining]
        omega
      · rw [if_neg h511] at herr0 ⊢
        exact key _ _ h511 herr0
    | none =>
      cases hal : allocate1 free with
      | none =>
        rw [setupLoop_cons_fail descend 1 rest addr hn hp hal] at herr0
        simp at herr0
      | some ffree =>
        obtain ⟨f, free'⟩ := ffree
        rw [setupLoop_cons_alloc descend 1 rest addr hn hp hal, if_pos rfl] at herr0 ⊢
        by_cases h511 : i = 511
        · rw [if_pos h511] at herr0 ⊢
          simp only [SetupRes.remaining]
          omega
        · rw [if_neg h511] at herr0 ⊢
          exact key _ _ h511 herr0

theorem setupLoop_lvl2_progress :
    ∀ (idxs : List Nat) (es : Entries) (addr : LinAddr) (n : Nat) (free : List Nat),
      idxs = List.range' (addr.part 2) (512 - addr.part 2) →
      (setupLoop (setupPageMap 1) 2 idxs es addr n free).err = none →
      (setupLoop (setupPageMap 1) 2 idxs es addr n free).remaining =
        n - min n (cap 2 addr) := by
  intro idxs
  induction idxs with
  | nil =>
    intro es addr n free hidxs herr0
    have hlt := part_two_lt addr
    have hz : 512 - addr.part 2 = 0 := by
      have h := hidxs.symm
      rwa [List.range'_eq_nil] at h
    omega
  | cons i rest ih =>
    intro es addr n free hidxs herr0
    have hlt := part_two_lt addr
    have hlt1 := part_one_lt addr
    have h52 : 512 - addr.part 2 = (511 - addr.part 2) + 1 := by omega
    rw [h52, List.range'_succ] at hidxs
    have hi : i = addr.part 2 := by
      have := congrArg (fun l => l.head?) hidxs
      simpa using this
    have hrest : rest = List.range' (addr.part 2 + 1) (511 - addr.part 2) := by
      have := congrArg (fun l => l.tail) hidxs
      simpa using this
    by_cases hn : n = 0
    · subst hn
      rw [setupLoop_zero] at herr0 ⊢
      simp
    have key : ∀ (c : PMTree) (es2 : Entries) (free1 : List Nat),
        (setupPageMap 1 c.entries addr n free1).err = none →
        ¬i = 511 →
        (setupLoop (setupPageMap 1) 2 rest es2
          (zeroParts (addr.setPart 2 (i + 1)) (2 - 1))
          (setupPageMap 1 c.entries addr n free1).remaining
          (setupPageMap 1 c.entries addr n free1).free).err = none →
        (setupLoop (setupPageMap 1) 2 rest es2
          (zeroParts (addr.setPart 2 (i + 1)) (2 - 1))
          (setupPageMap 1 c.entries addr n free1).remaining
          (setupPageMap 1 c.entries addr n free1).free).remaining =
          n - min n (cap 2 addr) := by
      intro c es2 free1 herr1 h511 herr2
      have hv : i + 1 < 512 := by omega
      have hrem1 : (setupPageMap 1 c.entries addr n free1).remaining =
          n - min n (512 - addr.part 1) := by
        have hr1 : setupPageMap 1 c.entries addr n free1 =
            setupLoop (setupPageMap 0) 1
              (List.range' (addr.part 1) (512 - addr.part 1)) c.entries addr n free1 := rfl
        rw [hr1] at herr1 ⊢
        exact setupLoop_lvl1_progress (setupPageMap 0) _ _ _ _ _ rfl herr1
      have hp2 : (zeroParts (addr.setPart 2 (i + 1)) (2 - 1)).part 2 = i + 1 :=
        advance_two_same addr (i + 1) hv
      have hp1 : (zeroParts (addr.setPart 2 (i + 1)) (2 - 1)).part 1 = 0 :=
        advance_two_low addr (i + 1)
      have hrest2 : rest = List.range'
          ((zeroParts (addr.setPart 2 (i + 1)) (2 - 1)).part 2)
          (512 - (zeroParts (addr.setPart 2 (i + 1)) (2 - 1)).part 2) := by
        rw [hp2, hrest, hi]
        congr 1
        omega
      have hih := ih es2 (zeroParts (addr.setPart 2 (i + 1)) (2 - 1)) _ _ hrest2 herr2
      rw [hih, hrem1, cap_two, cap_two, hp2, hp1, ← hi]
      omega
    cases hp : getEntry es i with
    | some wc =>
      obtain ⟨w0, c⟩ := wc
      rw [setupLoop_cons_present (setupPageMap 1) 2 rest addr hn hp,
        if_neg (by omega : ¬(2 : Nat) = 1)] at herr0 ⊢
      cases herr : (setupPageMap 1 c.entries addr n free).err with
      | some e => simp only [herr] at herr0; simp at herr0
      | none =>
        simp only [herr] at herr0 ⊢
        by_cases h511 : i = 511
        · rw [if_pos h511] at herr0 ⊢
          have hrem1 : (setupPageMap 1 c.entries addr n free).remaining =
              n - min n (512 - addr.part 1) := by
            have hr1 : setupPageMap 1 c.entries addr n free =
                setupLoop (setupPageMap 0) 1
                  (List.range' (addr.part 1) (512 - addr.part 1)) c.entries addr n free := rfl
            rw [hr1] at herr ⊢
            exact setupLoop_lvl1_progress (setupPageMap 0) _ _ _ _ _ rfl herr
          simp only [SetupRes.remaining] at hrem1 ⊢
          rw [hrem1, cap_two, ← hi, h511]
          omega
        · rw [if_neg h511] at herr0 ⊢
          exact key c _ free herr h511 herr0
    | none =>
      cases hal : allocate1 free with
      | none =>
        rw [setupLoop_cons_fail (setupPageMap 1) 2 rest addr hn hp hal] at herr0
        simp at herr0
      | some ffree =>
        obtain ⟨f, free'⟩ := ffree
        rw [setupLoop_cons_alloc (setupPageMap 1) 2 rest addr hn hp hal,
          if_neg (by omega : ¬(2 : Nat) = 1)] at herr0 ⊢
        cases herr : (setupPageMap 1 (PMTree.node f []).entries addr n free').err with
        | some e => simp only [herr] at herr0; simp at herr0
        | none =>
          simp only [herr] at herr0 ⊢
          by_cases h511 : i = 511
          · rw [if_pos h511] at herr0 ⊢
            have hrem1 : (setupPageMap 1 (PMTree.node f []).entries addr n free').remaining =
                n - min n (512 - addr.part 1) := by
              have hr1 : setupPageMap 1 (PMTree.node f []).entries addr n free' =
                  setupLoop (setupPageMap 0) 1
                    (List.range' (addr.part 1) (512 - addr.part 1))
                    (PMTree.node f []).entries addr n free' := rfl
              rw [hr1] at herr ⊢
              exact setupLoop_lvl1_progress (setupPageMap 0) _ _ _ _ _ rfl herr
            simp only [SetupRes.remaining] at hrem1 ⊢
            rw [hrem1, cap_two, ← hi, h511]
            omega
          · rw [if_neg h511] at herr0 ⊢
            exact key (PMTree.node f []) _ free' herr h511 herr0

theorem setupLoop_lvl3_progress :
    ∀ (idxs : List Nat) (es : Entries) (addr : LinAddr) (n : Nat) (free : List Nat),
      idxs = List.range' (addr.part 3) (512 - addr.part 3) →
      (setupLoop (setupPageMap 2) 3 idxs es addr n free).err = none →
      (setupLoop (setupPageMap 2) 3 idxs es addr n free).remaining =
        n - min n (cap 3 addr) := by
  intro idxs
  induction idxs with
  | nil =>
    intro es addr n free hidxs herr0
    have hlt := part_three_lt addr
    have hz : 512 - addr.part 3 = 0 := by
      have h := hidxs.symm
      rwa [List.range'_eq_nil] at h
    omega
  | cons i rest ih =>
    intro es addr n free hidxs herr0
    have hlt := part_three_lt addr
    have hlt2 := part_two_lt addr
    have hlt1 := part_one_lt addr
    have h52 : 512 - addr.part 3 = (511 - addr.part 3) + 1 := by omega
    rw [h52, List.range'_succ] at hidxs
    have hi : i = addr.part 3 := by
      have := congrArg (fun l => l.head?) hidxs
      simpa using this
    have hrest : rest = List.range' (addr.part 3 + 1) (511 - addr.part 3) := by
      have := congrArg (fun l => l.tail) hidxs
      simpa using this
    by_cases hn : n = 0
    · subst hn
      rw [setupLoop_zero] at herr0 ⊢
      simp
    have key : ∀ (c : PMTree) (es2 : Entries) (free1 : List Nat),
        (setupPageMap 2 c.entries addr n free1).err = none →
        ¬i = 511 →
        (setupLoop (setupPageMap 2) 3 rest es2
          (zeroParts (addr.setPart 3 (i + 1)) (3 - 1))
          (setupPageMap 2 c.entries addr n free1).remaining
          (setupPageMap 2 c.entries addr n free1).free).err = none →
        (setupLoop (setupPageMap 2) 3 rest es2
          (zeroParts (addr.setPart 3 (i + 1)) (3 - 1))
          (setupPageMap 2 c.entries addr n free1).remaining
          (setupPageMap 2 c.entries addr n free1).free).remaining =
          n - min n (cap 3 addr) := by
      intro c es2 free1 herr1 h511 herr2
      have hv : i + 1 < 512 := by omega
      have hrem1 : (setupPageMap 2 c.entries addr n free1).remaining =
          n - min n (cap 2 addr) := by
        have hr1 : setupPageMap 2 c.entries addr n free1 =
            setupLoop (setupPageMap 1) 2
              (List.range' (addr.part 2) (512 - addr.part 2)) c.entries addr n free1 := rfl
        rw [hr1] at herr1 ⊢
        exact setupLoop_lvl2_progress _ _ _ _ _ rfl herr1
      have hp3 : (zeroParts (addr.setPart 3 (i + 1)) (3 - 1)).part 3 = i + 1 :=
        advance_three_same addr (i + 1) hv
      have hp2 : (zeroParts (addr.setPart 3 (i + 1)) (3 - 1)).part 2 = 0 :=
        advance_three_mid addr (i + 1)
      have hp1 : (zeroParts (addr.setPart 3 (i + 1)) (3 - 1)).part 1 = 0 :=
        advance_three_low addr (i + 1)
      have hrest2 : rest = List.range'
          ((zeroParts (addr.setPart 3 (i + 1)) (3 - 1)).part 3)
          (512 - (zeroParts (addr.setPart 3 (i + 1)) (3 - 1)).part 3) := by
        rw [hp3, hrest, hi]
        congr 1
        omega
      have hih := ih es2 (zeroParts (addr.setPart 3 (i + 1)) (3 - 1)) _ _ hrest2 herr2
      rw [hih, hrem1, cap_two, cap_three, cap_three, hp3, hp2, hp1, ← hi]
      omega
    cases hp : getEntry es i with
    | some wc =>
      obtain ⟨w0, c⟩ := wc
      rw [setupLoop_cons_present (setupPageMap 2) 3 rest addr hn hp,
        if_neg (by omega : ¬(3 : Nat) = 1)] at herr0 ⊢
      cases herr : (setupPageMap 2 c.entries addr n free).err with
      | some e => simp only [herr] at herr0; simp at herr0
      | none =>
        simp only [herr] at herr0 ⊢
        by_cases h511 : i = 511
        · rw [if_pos h511] at herr0 ⊢
          have hrem1 : (setupPageMap 2 c.entries addr n free).remaining =
              n - min n (cap 2 addr) := by
            have hr1 : setupPageMap 2 c.entries addr n free =
                setupLoop (setupPageMap 1) 2
                  (List.range' (addr.part 2) (512 - addr.part 2)) c.entries addr n free := rfl
            rw [hr1] at herr ⊢
            exact setupLoop_lvl2_progress _ _ _ _ _ rfl herr
          simp only [SetupRes.remaining] at hrem1 ⊢
          rw [hrem1, cap_two, cap_three, ← hi, h511]
          omega
        · rw [if_neg h511] at herr0 ⊢
          exact key c _ free herr h511 herr0
    | none =>
      cases hal : allocate1 free with
      | none =>
        rw [setupLoop_cons_fail (setupPageMap 2) 3 rest addr hn hp hal] at herr0
        simp at herr0
      | some ffree =>
        obtain ⟨f, free'⟩ := ffree
        rw [setupLoop_cons_alloc (setupPageMap 2) 3 rest addr hn hp hal,
          if_neg (by omega : ¬(3 : Nat) = 1)] at herr0 ⊢
        cases herr : (setupPageMap 2 (PMTree.node f []).entries addr n free').err with
        | some e => simp only [herr] at herr0; simp at herr0
        | none =>
          simp only [herr] at herr0 ⊢
          by_cases h511 : i = 511
          · rw [if_pos h511] at herr0 ⊢
            have hrem1 : (setupPageMap 2 (PMTree.node f []).entries addr n free').remaining =
                n - min n (cap 2 addr) := by
              have hr1 : setupPageMap 2 (PMTree.node f []).entries addr n free' =
                  setupLoop (setupPageMap 1) 2
                    (List.range' (addr.part 2) (512 - addr.part 2))
                    (PMTree.node f []).entries addr n free' := rfl
              rw [hr1] at herr ⊢
              exact setupLoop_lvl2_progress _ _ _ _ _ rfl herr
            simp only [SetupRes.remaining] at hrem1 ⊢
            rw [hrem1, cap_two, cap_three, ← hi, h511]
            omega
          · rw [if_neg h511] at herr0 ⊢
            exact key (PMTree.node f []) _ free' herr h511 herr0

/-- Entry point for the level-3 exact-progress lemma: `SetupPageMap` at
level 3 maps `min n (cap 3 addr)` pages when it succeeds. -/
theorem setupPageMap3_progress (es : Entries) (addr : LinAddr) (n : Nat)
    (free : List Nat) (herr : (setupPageMap 3 es addr n free).err = none) :
    (setupPageMap 3 es addr n free).remaining = n - min n (cap 3 addr) := by
  have hr : setupPageMap 3 es addr n free =
      setupLoop (setupPageMap 2) 3
        (List.range' (addr.part 3) (512 - addr.part 3)) es addr n free := rfl
  rw [hr] at herr ⊢
  exact setupLoop_lvl3_progress _ _ _ _ _ rfl herr

theorem part_four_lt (a : LinAddr) : a.part 4 < 512 := by
  simp only [LinAddr.part]
  omega

theorem setupLoop_zero_any (descend : Entries → LinAddr → Nat → List Nat → SetupRes)
    (lvl : Nat) (idxs : List Nat) (es : Entries) (addr : LinAddr) (free : List Nat) :
    setupLoop descend lvl idxs es addr 0 free = ⟨es, 0, free, none⟩ := by
  cases idxs with
  | nil => rw [setupLoop_nil]
  | cons i rest => rw [setupLoop_zero]

theorem setupPageMap4_single (es : Entries) (addr : LinAddr) (n : Nat) (free : List Nat)
    (hn : n ≠ 0) (hcap : n ≤ cap 3 addr)
    (hok : (setupPageMap 4 es addr n free).err = none) :
    ∃ F ces2,
      getEntry (setupPageMap 4 es addr n free).es (addr.part 4) = some (true, .node F ces2) ∧
      ∀ x ∈ free,
        x = F ∨ x ∈ (setupPageMap 4 es addr n free).free ∨ x ∈ framesOf 3 ces2 := by
  have hlt := part_four_lt addr
  have hr4 : setupPageMap 4 es addr n free =
      setupLoop (setupPageMap 3) 4
        (List.range' (addr.part 4) (512 - addr.part 4)) es addr n free := rfl
  have h52 : 512 - addr.part 4 = (511 - addr.part 4) + 1 := by omega
  have hcons : List.range' (addr.part 4) (512 - addr.part 4) =
      addr.part 4 :: List.range' (addr.part 4 + 1) (511 - addr.part 4) := by
    rw [h52, List.range'_succ]
  rw [hr4, hcons] at hok ⊢
  cases hp : getEntry es (addr.part 4) with
  | some wc =>
    obtain ⟨w0, c⟩ := wc
    rw [setupLoop_cons_present (setupPageMap 3) 4 _ addr hn hp,
      if_neg (by omega : ¬(4 : Nat) = 1)] at hok ⊢
    cases herr : (setupPageMap 3 c.entries addr n free).err with
    | some e => simp only [herr] at hok; simp at hok
    | none =>
      simp only [herr] at hok ⊢
      have hrem : (setupPageMap 3 c.entries addr n free).remaining = 0 := by
        rw [setupPageMap3_progress c.entries addr n free herr]
        omega
      refine ⟨c.frame, (setupPageMap 3 c.entries addr n free).es, ?_, ?_⟩ <;>
        by_cases h511 : addr.part 4 = 511
      · rw [if_pos h511]
        exact getEntry_setEntry_self es (addr.part 4) true _
      · rw [if_neg h511, hrem, setupLoop_zero_any]
        exact getEntry_setEntry_self es (addr.part 4) true _
      · rw [if_pos h511]
        intro x hx
        rcases setupPageMap_inv 3 c.entries addr n free x (Or.inl hx) with h | h
        · exact Or.inr (Or.inl h)
        · exact Or.inr (Or.inr h)
      · rw [if_neg h511, hrem, setupLoop_zero_any]
        intro x hx
        rcases setupPageMap_inv 3 c.entries addr n free x (Or.inl hx) with h | h
        · exact Or.inr (Or.inl h)
        · exact Or.inr (Or.inr h)
  | none =>
    cases hal : allocate1 free with
    | none =>
      rw [setupLoop_cons_fail (setupPageMap 3) 4 _ addr hn hp hal] at hok
      simp at hok
    | some ffree =>
      obtain ⟨f, free'⟩ := ffree
      rw [setupLoop_cons_alloc (setupPageMap 3) 4 _ addr hn hp hal,
        if_neg (by omega : ¬(4 : Nat) = 1)] at hok ⊢
      cases herr : (setupPageMap 3 (PMTree.node f []).entries addr n free').err with
      | some e => simp only [herr] at hok; simp at hok
      | none =>
        simp only [herr] at hok ⊢
        have hrem : (setupPageMap 3 (PMTree.node f []).entries addr n free').remaining = 0 := by
          rw [setupPageMap3_progress _ addr n free' herr]
          omega
        refine ⟨f, (setupPageMap 3 (PMTree.node f []).entries addr n free').es, ?_, ?_⟩ <;>
          by_cases h511 : addr.part 4 = 511
        · rw [if_pos h511]
          exact getEntry_setEntry_self es (addr.part 4) true _
        · rw [if_neg h511, hrem, setupLoop_zero_any]
          exact getEntry_setEntry_self es (addr.part 4) true _
        · rw [if_pos h511]
          intro x hx
          rcases allocate1_mem_split hal x hx with h | h
          · exact Or.inl h
          rcases setupPageMap_inv 3 (PMTree.node f []).entries addr n free' x (Or.inl h) with
            h2 | h2
          · exact Or.inr (Or.inl h2)
          · exact Or.inr (Or.inr h2)
        · rw [if_neg h511, hrem, setupLoop_zero_any]
          intro x hx
          rcases allocate1_mem_split hal x hx with h | h
          · exact Or.inl h
          rcases setupPageMap_inv 3 (PMTree.node f []).entries addr n free' x (Or.inl h) with
            h2 | h2
          · exact Or.inr (Or.inl h2)
          · exact Or.inr (Or.inr h2)

theorem getFirstLoadAddress_no_load :
    ∀ (phdrs : List Phdr) (a : Nat), (∀ ph ∈ phdrs, ph.p_type ≠ PT_LOAD) →
      getFirstLoadAddress phdrs a = a := by
  intro phdrs
  induction phdrs with
  | nil => intro a _; rfl
  | cons ph rest ih =>
    intro a h
    rw [getFirstLoadAddress]
    rw [if_neg (h ph (List.mem_cons_self ph rest))]
    exact ih a (fun q hq => h q (List.mem_cons_of_mem ph hq))

theorem vaddrMinLoop_le :
    ∀ (phdrs : List Phdr) (m : Nat),
      vaddrMinLoop phdrs m ≤ m ∧
      ∀ ph ∈ phdrs, ph.p_type = PT_LOAD → vaddrMinLoop phdrs m ≤ ph.p_vaddr := by
  intro phdrs
  induction phdrs with
  | nil => intro m; exact ⟨Nat.le_refl m, by simp⟩
  | cons p rest ih =>
    intro m
    rw [vaddrMinLoop]
    by_cases hp : p.p_type = PT_LOAD
    · rw [if_pos hp]
      obtain ⟨h1, h2⟩ := ih (min m p.p_vaddr)
      refine ⟨h1.trans (Nat.min_le_left _ _), ?_⟩
      intro ph hph hty
      rcases List.mem_cons.mp hph with h | h
      · exact h ▸ h1.trans (Nat.min_le_right _ _)
      · exact h2 ph h hty
    · rw [if_neg hp]
      obtain ⟨h1, h2⟩ := ih m
      refine ⟨h1, ?_⟩
      intro ph hph hty
      rcases List.mem_cons.mp hph with h | h
      · exact absurd (h ▸ hty) hp
      · exact h2 ph h hty

theorem vaddrMinLoop_cases :
    ∀ (phdrs : List Phdr) (m : Nat),
      vaddrMinLoop phdrs m = m ∨
      ∃ ph ∈ phdrs, ph.p_type = PT_LOAD ∧ vaddrMinLoop phdrs m = ph.p_vaddr := by
  intro phdrs
  induction phdrs with
  | nil => intro m; exact Or.inl rfl
  | cons p rest ih =>
    intro m
    rw [vaddrMinLoop]
    by_cases hp : p.p_type = PT_LOAD
    · rw [if_pos hp]
      rcases ih (min m p.p_vaddr) with h | ⟨ph, hmem, hty, heq⟩
      · rcases Nat.le_total m p.p_vaddr with hmin | hmin
        · rw [Nat.min_eq_left hmin] at h ⊢
          exact Or.inl h
        · rw [Nat.min_eq_right hmin] at h ⊢
          exact Or.inr ⟨p, List.mem_cons_self p rest, hp, h⟩
      · exact Or.inr ⟨ph, List.mem_cons_of_mem p hmem, hty, heq⟩
    · rw [if_neg hp]
      rcases ih m with h | ⟨ph, hmem, hty, heq⟩
      · exact Or.inl h
      · exact Or.inr ⟨ph, List.mem_cons_of_mem p hmem, hty, heq⟩

theorem vaddrMaxLoop_ge :
    ∀ (phdrs : List Phdr) (m : Nat),
      m ≤ vaddrMaxLoop phdrs m ∧
      ∀ ph ∈ phdrs, ph.p_type = PT_LOAD →
        (ph.p_vaddr + ph.p_memsz) % U64 ≤ vaddrMaxLoop phdrs m := by
  intro phdrs
  induction phdrs with
  | nil => intro m; exact ⟨Nat.le_refl m, by simp⟩
  | cons p rest ih =>
    intro m
    rw [vaddrMaxLoop]
    by_cases hp : p.p_type = PT_LOAD
    · rw [if_pos hp]
      obtain ⟨h1, h2⟩ := ih (max m ((p.p_vaddr + p.p_memsz) % U64))
      refine ⟨(Nat.le_max_left _ _).trans h1, ?_⟩
      intro ph hph hty
      rcases List.mem_cons.mp hph with h | h
      · subst h
        exact (Nat.le_max_right _ _).trans h1
      · exact h2 ph h hty
    · rw [if_neg hp]
      obtain ⟨h1, h2⟩ := ih m
      refine ⟨h1, ?_⟩
      intro ph hph hty
      rcases List.mem_cons.mp hph with h | h
      · exact absurd (h ▸ hty) hp
      · exact h2 ph h hty

theorem vaddrMaxLoop_cases :
    ∀ (phdrs : List Phdr) (m : Nat),
      vaddrMaxLoop phdrs m = m ∨
      ∃ ph ∈ phdrs, ph.p_type = PT_LOAD ∧
        vaddrMaxLoop phdrs m = (ph.p_vaddr + ph.p_memsz) % U64 := by
  intro phdrs
  induction phdrs with
  | nil => intro m; exact Or.inl rfl
  | cons p rest ih =>
    intro m
    rw [vaddrMaxLoop]
    by_cases hp : p.p_type = PT_LOAD
    · rw [if_pos hp]
      rcases ih (max m ((p.p_vaddr + p.p_memsz) % U64)) with h | ⟨ph, hmem, hty, heq⟩
      · rcases Nat.le_total m ((p.p_vaddr + p.p_memsz) % U64) with hmax | hmax
        · rw [Nat.max_eq_right hmax] at h ⊢
          exact Or.inr ⟨p, List.mem_cons_self p rest, hp, h⟩
        · rw [Nat.max_eq_left hmax] at h ⊢
          exact Or.inl h
      · exact Or.inr ⟨ph, List.mem_cons_of_mem p hmem, hty, heq⟩
    · rw [if_neg hp]
      rcases ih m with h | ⟨ph, hmem, hty, heq⟩
      · exact Or.inl h
      · exact Or.inr ⟨ph, List.mem_cons_of_mem p hmem, hty, heq⟩

theorem zlen_eq {fs ms : Nat} (hle : fs ≤ ms) (hlt : ms < U64) :
    (ms + U64 - fs) % U64 = ms - fs := by
  have h1 : ms + U64 - fs = (ms - fs) + U64 := by omega
  rw [h1, Nat.add_mod_right]
  exact Nat.mod_eq_of_lt (by omega)

theorem applySegment_out {file m : Nat → Nat} {ph : Phdr} {a : Nat}
    (hfil : ph.p_filesz ≤ ph.p_memsz) (hsz : ph.p_memsz < U64)
    (hout : a < ph.p_vaddr ∨ ph.p_vaddr + ph.p_memsz ≤ a) :
    applySegment file m ph a = m a := by
  rw [applySegment]
  rw [zlen_eq hfil hsz]
  rw [if_neg (by omega), if_neg (by omega)]

theorem applySegment_copy {file m : Nat → Nat} {ph : Phdr} {k : Nat}
    (hk : k < ph.p_filesz) :
    applySegment file m ph (ph.p_vaddr + k) = file (ph.p_offset + k) := by
  rw [applySegment]
  rw [if_pos (by omega)]
  congr 1
  omega

theorem applySegment_zero {file m : Nat → Nat} {ph : Phdr} {k : Nat}
    (hfil : ph.p_filesz ≤ ph.p_memsz) (hsz : ph.p_memsz < U64)
    (hk1 : ph.p_filesz ≤ k) (hk2 : k < ph.p_memsz) :
    applySegment file m ph (ph.p_vaddr + k) = 0 := by
  rw [applySegment]
  rw [zlen_eq hfil hsz]
  rw [if_neg (by omega), if_pos (by omega)]

theorem applyLoads_untouched :
    ∀ (phdrs : List Phdr) (file m : Nat → Nat) (a : Nat),
      (∀ ph ∈ phdrs, ph.p_type = PT_LOAD →
        ph.p_filesz ≤ ph.p_memsz ∧ ph.p_memsz < U64 ∧
        (a < ph.p_vaddr ∨ ph.p_vaddr + ph.p_memsz ≤ a)) →
      applyLoads file m phdrs a = m a := by
  intro phdrs
  induction phdrs with
  | nil => intro file m a _; rfl
  | cons p rest ih =>
    intro file m a h
    rw [applyLoads, List.foldl_cons]
    have step : applyLoads file
        (if p.p_type = PT_LOAD then applySegment file m p else m) rest a =
        (if p.p_type = PT_LOAD then applySegment file m p else m) a :=
      ih file _ a (fun q hq hty => h q (List.mem_cons_of_mem p hq) hty)
    rw [← applyLoads, step]
    by_cases hp : p.p_type = PT_LOAD
    · rw [if_pos hp]
      obtain ⟨h1, h2, h3⟩ := h p (List.mem_cons_self p rest) hp
      exact applySegment_out h1 h2 h3
    · rw [if_neg hp]

theorem applyLoads_bytes :
    ∀ (phdrs : List Phdr) (file m : Nat → Nat),
      (∀ ph ∈ phdrs, ph.p_type = PT_LOAD →
        ph.p_filesz ≤ ph.p_memsz ∧ ph.p_memsz < U64) →
      phdrs.Pairwise (fun p q => p.p_type = PT_LOAD → q.p_type = PT_LOAD →
        p.p_vaddr + p.p_memsz ≤ q.p_vaddr ∨ q.p_vaddr + q.p_memsz ≤ p.p_vaddr) →
      ∀ ph ∈ phdrs, ph.p_type = PT_LOAD →
        (∀ k, k < ph.p_filesz →
          applyLoads file m phdrs (ph.p_vaddr + k) = file (ph.p_offset + k)) ∧
        (∀ k, ph.p_filesz ≤ k → k < ph.p_memsz →
          applyLoads file m phdrs (ph.p_vaddr + k) = 0) := by
  intro phdrs
  induction phdrs with
  | nil => intro file m _ _ ph hph; simp at hph
  | cons p rest ih =>
    intro file m hsz hdisj ph hph hty
    have hszrest : ∀ q ∈ rest, q.p_type = PT_LOAD →
        q.p_filesz ≤ q.p_memsz ∧ q.p_memsz < U64 :=
      fun q hq => hsz q (List.mem_cons_of_mem p hq)
    rcases List.mem_cons.mp hph with hphp | hphrest
    · subst hphp
      obtain ⟨hf, hm⟩ := hsz ph (List.mem_cons_self ph rest) hty
      have hdall := List.pairwise_cons.mp hdisj
      have untouched : ∀ k, k < ph.p_memsz →
          applyLoads file (applySegment file m ph) rest (ph.p_vaddr + k) =
            applySegment file m ph (ph.p_vaddr + k) := by
        intro k hk
        apply applyLoads_untouched
        intro q hq hqty
        obtain ⟨hqf, hqm⟩ := hszrest q hq hqty
        refine ⟨hqf, hqm, ?_⟩
        rcases hdall.1 q hq hty hqty with h | h
        · omega
        · omega
      constructor
      · intro k hk
        rw [applyLoads, List.foldl_cons, if_pos hty, ← applyLoads]
        rw [untouched k (by omega)]
        exact applySegment_copy hk
      · intro k hk1 hk2
        rw [applyLoads, List.foldl_cons, if_pos hty, ← applyLoads]
        rw [untouched k hk2]
        exact applySegment_zero hf hm hk1 hk2
    · have hdrest := (List.pairwise_cons.mp hdisj).2
      rw [applyLoads, List.foldl_cons, ← applyLoads]
      exact ih file _ hszrest hdrest ph hphrest hty

theorem setupPageMaps_free_sub (st : MachineState) (addr : LinAddr) (n : Nat) :
    (setupPageMaps st addr n).1.free ⊆ st.free :=
  setupPageMap_free_sub 4 st.root.entries addr n st.free

theorem copyLoadSegments_eq (st : MachineState) (file : Nat → Nat) (ehdr : Ehdr) :
    copyLoadSegments st file ehdr =
      (match setupPageMaps st
          (LinAddr.ofValue (vaddrMinLoop ehdr.phdrs (U64 - 1)))
          (((vaddrMaxLoop ehdr.phdrs 0 + U64 - vaddrMinLoop ehdr.phdrs (U64 - 1) % U64)
              % U64 + 4095) % U64 / 4096) with
       | (st1, some e) => (st1, some e)
       | (st1, none) => ({ st1 with mem := applyLoads file st1.mem ehdr.phdrs }, none)) := by
  rw [copyLoadSegments]
  cases setupPageMaps st
      (LinAddr.ofValue (vaddrMinLoop ehdr.phdrs (U64 - 1)))
      (((vaddrMaxLoop ehdr.phdrs 0 + U64 - vaddrMinLoop ehdr.phdrs (U64 - 1) % U64)
          % U64 + 4095) % U64 / 4096) with
  | mk st1 err => cases err <;> rfl

theorem copyLoadSegments_free_sub (st : MachineState) (file : Nat → Nat) (ehdr : Ehdr) :
    (copyLoadSegments st file ehdr).1.free ⊆ st.free := by
  rw [copyLoadSegments_eq]
  cases hsp : setupPageMaps st
      (LinAddr.ofValue (vaddrMinLoop ehdr.phdrs (U64 - 1)))
      (((vaddrMaxLoop ehdr.phdrs 0 + U64 - vaddrMinLoop ehdr.phdrs (U64 - 1) % U64)
          % U64 + 4095) % U64 / 4096) with
  | mk st1 err =>
    have h := setupPageMaps_free_sub st
      (LinAddr.ofValue (vaddrMinLoop ehdr.phdrs (U64 - 1)))
      (((vaddrMaxLoop ehdr.phdrs 0 + U64 - vaddrMinLoop ehdr.phdrs (U64 - 1) % U64)
          % U64 + 4095) % U64 / 4096)
    rw [hsp] at h
    cases err with
    | none => exact h
    | some e => exact h

/-- C10: for an `ET_EXEC` image containing no `PT_LOAD` program header,
`GetFirstLoadAddress` leaves the out parameter at its initial value 0, so
`LoadElf` fails the upper-half check and returns `kInvalidFormat` without
touching the page maps, the allocator or memory. -/
theorem C10_loadElf_no_load (st : MachineState) (file : Nat → Nat) (ehdr : Ehdr)
    (hty : ehdr.e_type = ET_EXEC)
    (hnl : ∀ ph ∈ ehdr.phdrs, ph.p_type ≠ PT_LOAD) :
    getFirstLoadAddress ehdr.phdrs 0 = 0 ∧
    loadElf st file ehdr = (st, some .kInvalidFormat) := by
  have h0 : getFirstLoadAddress ehdr.phdrs 0 = 0 := getFirstLoadAddress_no_load _ 0 hnl
  refine ⟨h0, ?_⟩
  rw [loadElf, if_neg (by simp [hty])]
  simp only [h0]
  rw [if_pos (by norm_num)]

/-- Closed instance of C10 at a concrete image with a single non-load
program header and a concrete machine state. -/
theorem C10_loadElf_no_load_witness :
    getFirstLoadAddress noLoadElf.phdrs 0 = 0 ∧
    loadElf emptyFreeState exampleFile noLoadElf = (emptyFreeState, some .kInvalidFormat) :=
  C10_loadElf_no_load emptyFreeState exampleFile noLoadElf (by decide) (by decide)

/-- C3: `GetFirstLoadAddress` returns the `p_vaddr` of the FIRST `PT_LOAD`
header, not the minimum over all of them, contradicting its own doc
comment.  On an image whose first `PT_LOAD` sits in the upper half while a
later one sits at `0x1000`, the minimum is below
`0xffff'8000'0000'0000`, yet `LoadElf` does not return `kInvalidFormat`:
it proceeds to map pages (failing later with `kNoEnoughMemory` on an
empty allocator). -/
theorem C3_first_load_not_min :
    getFirstLoadAddress outOfOrderElf.phdrs 0 = 0xffff800000001000 ∧
    (∃ ph ∈ outOfOrderElf.phdrs, ph.p_type = PT_LOAD ∧ ph.p_vaddr = 0x1000) ∧
    0x1000 < 0xffff800000000000 ∧
    (loadElf emptyFreeState exampleFile outOfOrderElf).2 = some .kNoEnoughMemory ∧
    (loadElf emptyFreeState exampleFile outOfOrderElf).2 ≠ some .kInvalidFormat := by
  refine ⟨by decide, ⟨outOfOrderElf.phdrs[1], by decide, by decide, by decide⟩,
    by decide, by decide, by decide⟩

/-- C9: every error path of `LoadElf` frees no frames: the free list of
the returned state is contained in the initial one (the walk only
allocates), so everything allocated before the failure stays allocated
until `CleanPageMaps` is called. -/
theorem C9_loadElf_error_frees_nothing (st : MachineState) (file : Nat → Nat)
    (ehdr : Ehdr) (e : KError) (herr : (loadElf st file ehdr).2 = some e) :
    (loadElf st file ehdr).1.free ⊆ st.free := by
  by_cases h1 : ehdr.e_type ≠ ET_EXEC
  · rw [loadElf, if_pos h1]
    exact fun x hx => hx
  · rw [loadElf, if_neg h1]
    show (if getFirstLoadAddress ehdr.phdrs 0 < 0xffff800000000000 then
        (st, some KError.kInvalidFormat) else copyLoadSegments st file ehdr).1.free ⊆ st.free
    by_cases h2 : getFirstLoadAddress ehdr.phdrs 0 < 0xffff800000000000
    · rw [if_pos h2]
      exact fun x hx => hx
    · rw [if_neg h2]
      exact copyLoadSegments_free_sub st file ehdr

/-- Closed instance of C9: on an allocator with nothing free, loading a
valid upper-half image fails with `kNoEnoughMemory` and the (empty) free
list is unchanged. -/
theorem C9_witness :
    (loadElf emptyFreeState exampleFile upperElf).2 = some .kNoEnoughMemory ∧
    (loadElf emptyFreeState exampleFile upperElf).1.free ⊆ emptyFreeState.free :=
  ⟨by decide,
   C9_loadElf_error_frees_nothing emptyFreeState exampleFile upperElf
     .kNoEnoughMemory (by decide)⟩

/-- C2 (amended): in `Terminal::ExecuteFile`, only the `e_type` check
rejects with `kInvalidFormat`; a file whose first four bytes are not
`"\x7fELF"` is NOT rejected: the buffer is cast to a function and called,
and `kSuccess` is returned. -/
theorem C2_executeFile_validation (st : MachineState) (file : Nat → Nat) (ehdr : Ehdr) :
    (ehdr.e_ident4 = elfMagic → ehdr.e_type ≠ ET_EXEC →
      executeFile st file ehdr = (st, [], some .kInvalidFormat)) ∧
    (ehdr.e_ident4 ≠ elfMagic →
      executeFile st file ehdr = (st, [.ranRawBlob], none)) := by
  constructor
  · intro hm hty
    rw [executeFile, if_neg (by simp [hm])]
    have hl : loadElf st file ehdr = (st, some .kInvalidFormat) := by
      rw [loadElf, if_pos hty]
    rw [hl]
  · intro hm
    rw [executeFile, if_pos hm]

/-- Counterexample to C2 as stated: a buffer that fails the magic check
is executed as a raw blob and `ExecuteFile` returns success, not
`kInvalidFormat`. -/
theorem C2_counterexample :
    (executeFile exampleState exampleFile rawBlobHeader).2.1 = [.ranRawBlob] ∧
    (executeFile exampleState exampleFile rawBlobHeader).2.2 = none ∧
    (executeFile exampleState exampleFile rawBlobHeader).2.2 ≠ some .kInvalidFormat := by
  refine ⟨by decide, by decide, by decide⟩

/-- Closed instance of C2 (amended) at a magic-valid `ET_DYN` header and
at a magic-less buffer. -/
theorem C2_witness :
    executeFile exampleState exampleFile dynHeader = (exampleState, [], some .kInvalidFormat) ∧
    executeFile exampleState exampleFile rawBlobHeader = (exampleState, [.ranRawBlob], none) :=
  ⟨(C2_executeFile_validation exampleState exampleFile dynHeader).1 (by decide) (by decide),
   (C2_executeFile_validation exampleState exampleFile rawBlobHeader).2 (by decide)⟩

/-- C7: on `ascii == '\n'`, `InputKey` null-terminates the line buffer,
pushes the non-empty line onto the 8-entry history (evicting the oldest,
i.e. the back of the deque), resets the insertion index to 0 and the
history index to -1, moves the cursor to column 0 of the next row
(scrolling instead when at the bottom row, which keeps the row number),
hands that state to `ExecuteLine`, prints the prompt `">"`, and returns
the whole inner area as the dirty rectangle.  `mid` is the state as
passed to `ExecuteLine`. -/
theorem C7_inputKey_newline (E : TermState → TermState × List TermEffect)
    (s : TermState) (mid : TermState)
    (hist : s.cmdHistory.length = 8)
    (hidx0 : 0 ≤ s.linebufIndex) (hidx1 : s.linebufIndex < 128)
    (hbuf : s.linebuf.length = 128)
    (hmid : mid = { linebuf := s.linebuf.set s.linebufIndex.toNat 0
                    linebufIndex := 0
                    cmdHistory :=
                      if s.linebufIndex > 0 then
                        (s.linebuf.set s.linebufIndex.toNat 0).takeWhile (fun c => c ≠ 0) ::
                          s.cmdHistory.dropLast
                      else s.cmdHistory
                    cmdHistoryIndex := -1
                    cursorX := 0
                    cursorY := if s.cursorY < kRows - 1 then s.cursorY + 1 else s.cursorY }) :
    inputKey E s 0 10 =
      ((printStr (E mid).1 [62]).1,
       ⟨4, 24, 8 * kColumns + 8, 16 * kRows + 8⟩,
       .drawCursor false ::
         ((if s.cursorY < kRows - 1 then []
           else [.moveRows, .fillRect 4 (4 + 16 * s.cursorY) (8 * kColumns) 16]) ++
          .execLine (mid.linebuf.takeWhile (fun c => c ≠ 0)) :: (E mid).2 ++
          (printStr (E mid).1 [62]).2 ++ [.drawCursor true])) ∧
    mid.linebuf[s.linebufIndex.toNat]? = some 0 ∧
    mid.cmdHistory.length = 8 ∧
    (s.linebufIndex > 0 →
      mid.cmdHistory =
        mid.linebuf.takeWhile (fun c => c ≠ 0) :: s.cmdHistory.dropLast) ∧
    (s.linebufIndex ≤ 0 → mid.cmdHistory = s.cmdHistory) ∧
    mid.linebufIndex = 0 ∧ mid.cmdHistoryIndex = -1 ∧ mid.cursorX = 0 ∧
    (s.cursorY < kRows - 1 → mid.cursorY = s.cursorY + 1) ∧
    (kRows - 1 ≤ s.cursorY → mid.cursorY = s.cursorY) := by
  have hlt : s.linebufIndex.toNat < s.linebuf.length := by
    rw [hbuf]
    omega
  subst hmid
  by_cases hpos : s.linebufIndex > 0 <;> by_cases hy : s.cursorY < kRows - 1
  · refine ⟨?_, ?_, ?_, ?_, ?_, rfl, rfl, rfl, ?_, ?_⟩
    · simp [inputKey, hpos, hy]
    · simp [List.getElem?_set_self hlt]
    · simp [hpos, hist]
    · intro h
      simp [hpos]
    · intro h
      omega
    · intro h
      simp [hy]
    · intro h
      omega
  · refine ⟨?_, ?_, ?_, ?_, ?_, rfl, rfl, rfl, ?_, ?_⟩
    · simp [inputKey, hpos, hy, scroll1Effects]
    · simp [List.getElem?_set_self hlt]
    · simp [hpos, hist]
    · intro h
      simp [hpos]
    · intro h
      omega
    · intro h
      omega
    · intro h
      simp [hy]
  · refine ⟨?_, ?_, ?_, ?_, ?_, rfl, rfl, rfl, ?_, ?_⟩
    · simp [inputKey, hpos, hy]
    · simp [List.getElem?_set_self hlt]
    · simp [hpos, hist]
    · intro h
      omega
    · intro h
      simp [hpos]
    · intro h
      simp [hy]
    · intro h
      omega
  · refine ⟨?_, ?_, ?_, ?_, ?_, rfl, rfl, rfl, ?_, ?_⟩
    · simp [inputKey, hpos, hy, scroll1Effects]
    · simp [List.getElem?_set_self hlt]
    · simp [hpos, hist]
    · intro h
      omega
    · intro h
      simp [hpos]
    · intro h
      omega
    · intro h
      simp [hy]

set_option maxRecDepth 8000 in
/-- Closed instance of C7 after typing `hi`: the returned dirty rectangle
is the whole inner area. -/
theorem C7_witness :
    (inputKey execNop typedHiState 0 10).2.1 =
      ⟨4, 24, 8 * kColumns + 8, 16 * kRows + 8⟩ := by
  have h := C7_inputKey_newline execNop typedHiState
    { linebuf := typedHiState.linebuf.set typedHiState.linebufIndex.toNat 0
      linebufIndex := 0
      cmdHistory :=
        if typedHiState.linebufIndex > 0 then
          (typedHiState.linebuf.set typedHiState.linebufIndex.toNat 0).takeWhile
            (fun c => c ≠ 0) :: typedHiState.cmdHistory.dropLast
        else typedHiState.cmdHistory
      cmdHistoryIndex := -1
      cursorX := 0
      cursorY := if typedHiState.cursorY < kRows - 1 then typedHiState.cursorY + 1
        else typedHiState.cursorY }
    (by decide) (by decide) (by decide) (by decide) rfl
  rw [h.1]

/-- C8 (amended): on `ascii == '\b'` with `cursor.x > 0`, `InputKey`
erases the cell at the decremented cursor position and decrements
`cursor.x`; the line-buffer insertion index is decremented only when it
is positive (it stays 0 otherwise).  With `cursor.x == 0` the state is
unchanged. -/
theorem C8_inputKey_backspace (E : TermState → TermState × List TermEffect)
    (s : TermState) :
    (0 < s.cursorX →
      inputKey E s 0 8 =
        ({ s with cursorX := s.cursorX - 1,
                  linebufIndex :=
                    if 0 < s.linebufIndex then s.linebufIndex - 1 else s.linebufIndex },
         ⟨4 + (4 + 8 * (s.cursorX - 1)), 24 + (4 + 16 * s.cursorY), 8 * 2, 16⟩,
         [.drawCursor false,
          .fillRect (4 + (4 + 8 * (s.cursorX - 1))) (24 + (4 + 16 * s.cursorY)) 8 16,
          .drawCursor true])) ∧
    (s.cursorX ≤ 0 →
      inputKey E s 0 8 =
        (s, ⟨4 + (4 + 8 * s.cursorX), 24 + (4 + 16 * s.cursorY), 8 * 2, 16⟩,
         [.drawCursor false, .drawCursor true])) := by
  constructor
  · intro hx
    by_cases hidx : 0 < s.linebufIndex
    · simp [inputKey, hx, hidx, calcCursorPos]
    · simp [inputKey, hx, hidx, calcCursorPos]
  · intro hx
    have hx0 : ¬s.cursorX > 0 := by omega
    simp [inputKey, hx0, calcCursorPos]

set_option maxRecDepth 8000 in
/-- Counterexample to C8 as stated: at a fresh prompt (`cursor.x = 1`,
insertion index 0, a reachable state), backspace decrements the cursor
but NOT the insertion index, which stays 0 instead of becoming -1. -/
theorem C8_counterexample :
    0 < freshPromptState.cursorX ∧
    (inputKey execNop freshPromptState 0 8).1.cursorX = 0 ∧
    (inputKey execNop freshPromptState 0 8).1.linebufIndex = 0 ∧
    (inputKey execNop freshPromptState 0 8).1.linebufIndex ≠
      freshPromptState.linebufIndex - 1 := by
  refine ⟨by decide, by decide, by decide, by decide⟩

set_option maxRecDepth 8000 in
/-- Closed instance of C8 (amended) at a state with text typed. -/
theorem C8_witness :
    (inputKey execNop typedHiState 0 8).1.cursorX = typedHiState.cursorX - 1 ∧
    (inputKey execNop typedHiState 0 8).1.linebufIndex =
      typedHiState.linebufIndex - 1 := by
  have h := (C8_inputKey_backspace execNop typedHiState).1 (by decide)
  rw [h]
  refine ⟨rfl, by decide⟩

theorem part_lt_512 (a : LinAddr) (j : Nat) : a.part j < 512 := by
  match j with
  | 0 => simp [LinAddr.part]
  | 1 => exact part_one_lt a
  | 2 => exact part_two_lt a
  | 3 => exact part_three_lt a
  | 4 => exact part_four_lt a
  | m + 5 => simp [LinAddr.part]

/-- C4 (amended): `SetupPageMap(root, level, addr, n)` never maps more
than `n` pages; when it succeeds it stops only because all `n` pages were
mapped or because it processed entry 511 of the current level (that entry
is then present); an allocation failure propagates as `kNoEnoughMemory`
and frees nothing.  The returned page count is the `num_4kpages` value at
the top of the failing iteration: at level 1 over a fresh (empty) table
this equals `n` minus the number of entries created, but at higher levels
pages mapped by the partially completed descent are counted again (see
the counterexample). -/
theorem C4_setupPageMap (l : Nat) (es : Entries) (addr : LinAddr) (n : Nat)
    (free : List Nat) :
    (setupPageMap (l + 1) es addr n free).remaining ≤ n ∧
    ((setupPageMap (l + 1) es addr n free).err = none →
      (setupPageMap (l + 1) es addr n free).remaining = 0 ∨
        getEntry (setupPageMap (l + 1) es addr n free).es 511 ≠ none) ∧
    (∀ e, (setupPageMap (l + 1) es addr n free).err = some e →
      e = .kNoEnoughMemory ∧ (setupPageMap (l + 1) es addr n free).free ⊆ free) ∧
    (∀ e, (setupPageMap 1 [] addr n free).err = some e →
      (setupPageMap 1 [] addr n free).remaining =
        n - (setupPageMap 1 [] addr n free).es.length) := by
  refine ⟨setupPageMap_remaining_le (l + 1) es addr n free, ?_, ?_, ?_⟩
  · intro herr
    have hmem : 511 ∈ List.range' (addr.part (l + 1)) (512 - addr.part (l + 1)) := by
      rw [List.mem_range']
      have := part_lt_512 addr (l + 1)
      refine ⟨511 - addr.part (l + 1), by omega, by omega⟩
    exact setupLoop_stop (setupPageMap l) (l + 1) _ es addr n free hmem herr
  · intro e herr
    exact ⟨setupPageMap_err_kind (l + 1) es addr n free e herr,
      setupPageMap_free_sub (l + 1) es addr n free⟩
  · intro e herr
    have h := setupLoop_lvl1_fresh (setupPageMap 0)
      (List.range' (addr.part 1) (512 - addr.part 1)) [] addr n free e
      (fun j _ => rfl) (List.nodup_range' _ _) herr
    simpa using h

/-- Counterexample to C4 as stated: at level 2 with two free frames and
two pages requested, the PT is allocated and one page is mapped before
the allocator runs dry; the call reports 2 pages remaining although only
one page is still unmapped. -/
theorem C4_counterexample :
    (setupPageMap 2 [] addrZero 2 [1, 2]).err = some .kNoEnoughMemory ∧
    (setupPageMap 2 [] addrZero 2 [1, 2]).remaining = 2 ∧
    leavesCount 2 (setupPageMap 2 [] addrZero 2 [1, 2]).es = 1 ∧
    leavesCount 2 ([] : Entries) = 0 ∧
    (setupPageMap 2 [] addrZero 2 [1, 2]).remaining ≠
      2 - (leavesCount 2 (setupPageMap 2 [] addrZero 2 [1, 2]).es -
        leavesCount 2 ([] : Entries)) := by
  refine ⟨by decide, by decide, by decide, by decide, by decide⟩

/-- Closed instance of C4 (amended): with one free frame the level-2 walk
fails reporting `kNoEnoughMemory`; the level-1 walk over a fresh table
reports the exact count. -/
theorem C4_witness :
    (setupPageMap 2 [] addrZero 2 [1]).remaining ≤ 2 ∧
    (KError.kNoEnoughMemory = KError.kNoEnoughMemory ∧
      (setupPageMap 2 [] addrZero 2 [1]).free ⊆ [1]) ∧
    (setupPageMap 1 [] addrZero 2 [1]).remaining =
      2 - (setupPageMap 1 [] addrZero 2 [1]).es.length :=
  ⟨(C4_setupPageMap 1 [] addrZero 2 [1]).1,
   (C4_setupPageMap 1 [] addrZero 2 [1]).2.2.1 .kNoEnoughMemory (by decide),
   (C4_setupPageMap 1 [] addrZero 2 [1]).2.2.2 .kNoEnoughMemory (by decide)⟩

/-- C6: `CleanPageMaps(addr)` zeroes exactly the PML4 entry selected by
`addr`, leaves every other PML4 entry unchanged, recursively frees every
frame in the PDP subtree that entry pointed to (including the mapped data
frames at PT level), and frees the PDP frame itself; frames already free
stay free. -/
theorem C6_cleanPageMaps (st : MachineState) (addr : LinAddr) (w : Bool)
    (pf : Nat) (ces : Entries)
    (hp : getEntry st.root.entries (addr.part 4) = some (w, .node pf ces)) :
    getEntry (cleanPageMaps st addr).root.entries (addr.part 4) = none ∧
    (∀ q, q ≠ addr.part 4 →
      getEntry (cleanPageMaps st addr).root.entries q = getEntry st.root.entries q) ∧
    pf ∈ (cleanPageMaps st addr).free ∧
    (∀ x ∈ framesOf 3 ces, x ∈ (cleanPageMaps st addr).free) ∧
    (∀ x ∈ st.free, x ∈ (cleanPageMaps st addr).free) := by
  have hclean : cleanPageMaps st addr =
      { st with
        root := PMTree.node st.root.frame (removeEntry st.root.entries (addr.part 4)),
        free := pf :: cleanPageMap 3 ces st.free } := by
    rw [cleanPageMaps, hp]
    rfl
  rw [hclean]
  refine ⟨?_, ?_, ?_, ?_, ?_⟩
  · exact getEntry_removeEntry_self st.root.entries (addr.part 4)
  · intro q hq
    exact getEntry_removeEntry_other st.root.entries hq
  · exact List.mem_cons_self _ _
  · intro x hx
    exact List.mem_cons_of_mem _ (cleanPageMap_collect 2 ces st.free x hx)
  · intro x hx
    exact List.mem_cons_of_mem _ (cleanPageMap_mono 3 ces st.free hx)

/-- Closed instance of C6 on a two-entry PML4: entry 0 is cleaned, the
sibling entry 3 is untouched, and frames 7 (PDP) and 8 (PD below it) are
freed. -/
theorem C6_witness :
    getEntry (cleanPageMaps c6State addrZero).root.entries (addrZero.part 4) = none ∧
    getEntry (cleanPageMaps c6State addrZero).root.entries 3 =
      getEntry c6State.root.entries 3 ∧
    7 ∈ (cleanPageMaps c6State addrZero).free ∧
    8 ∈ (cleanPageMaps c6State addrZero).free := by
  have h := C6_cleanPageMaps c6State addrZero true 7 [(3, true, .node 8 [])] rfl
  exact ⟨h.1, h.2.1 3 (by decide), h.2.2.1, h.2.2.2.1 8 (by decide)⟩

/-- C5 (amended): provided the requested pages fit inside the single PML4
subtree addressed by `addr` (`n ≤ cap 3 addr`, so the level-4 walk never
advances to a sibling PML4 entry), a successful `SetupPageMaps(addr, n)`
followed by `CleanPageMaps(addr)` returns the allocator's free set to a
superset of what it was before: every frame the setup allocated lands in
the cleaned subtree and is freed again. -/
theorem C5_setup_then_clean (st : MachineState) (addr : LinAddr) (n : Nat)
    (hn : 0 < n) (hcap : n ≤ cap 3 addr)
    (hok : (setupPageMaps st addr n).2 = none) :
    ∀ x ∈ st.free, x ∈ (cleanPageMaps (setupPageMaps st addr n).1 addr).free := by
  intro x hx
  have hok4 : (setupPageMap 4 st.root.entries addr n st.free).err = none := hok
  obtain ⟨F, ces2, hget, hsplit⟩ :=
    setupPageMap4_single st.root.entries addr n st.free (by omega) hcap hok4
  have hclean : (cleanPageMaps (setupPageMaps st addr n).1 addr).free =
      F :: cleanPageMap 3 ces2 (setupPageMap 4 st.root.entries addr n st.free).free := by
    show (cleanPageMaps
        { st with
          root := PMTree.node st.root.frame (setupPageMap 4 st.root.entries addr n st.free).es,
          free := (setupPageMap 4 st.root.entries addr n st.free).free } addr).free = _
    rw [cleanPageMaps]
    simp only [PMTree.entries] at hget ⊢
    rw [hget]
    rfl
  rw [hclean]
  rcases hsplit x hx with h | h | h
  · exact h ▸ List.mem_cons_self _ _
  · exact List.mem_cons_of_mem _ (cleanPageMap_mono 3 ces2 _ h)
  · exact List.mem_cons_of_mem _ (cleanPageMap_collect 2 ces2 _ x h)

/-- Counterexample to C5 as stated: mapping `n = 2` pages starting at the
last page of PML4 entry 0 (`pdp = pd = pt = 511`) succeeds by spilling
into PML4 entry 1, but `CleanPageMaps` only frees the entry-0 subtree:
frame 5, free before the round trip, is still allocated afterwards, so
the final free set is not a superset of the initial one. -/
theorem C5_counterexample :
    (setupPageMaps boundaryState boundaryAddr 2).2 = none ∧
    5 ∈ boundaryState.free ∧
    5 ∉ (cleanPageMaps (setupPageMaps boundaryState boundaryAddr 2).1 boundaryAddr).free := by
  refine ⟨by decide, by decide, by decide⟩

/-- Closed instance of C5 (amended): one page at address 0 is set up and
torn down; every initially free frame is free again. -/
theorem C5_witness :
    0 < 1 ∧ 1 ≤ cap 3 addrZero ∧ (setupPageMaps exampleState addrZero 1).2 = none ∧
    ∀ x ∈ exampleState.free,
      x ∈ (cleanPageMaps (setupPageMaps exampleState addrZero 1).1 addrZero).free :=
  ⟨Nat.one_pos, by decide, by decide,
   C5_setup_then_clean exampleState addrZero 1 Nat.one_pos (by decide) (by decide)⟩

/-- C1: `CopyLoadSegments` computes `vaddr_min` as the minimum `p_vaddr`
and `vaddr_max` as the maximum `p_vaddr + p_memsz` over the `PT_LOAD`
headers, maps `ceil((vaddr_max - vaddr_min) / 4096)` pages starting at
`vaddr_min` via `SetupPageMaps`, and then for each `PT_LOAD` segment
copies `p_filesz` bytes from file offset `p_offset` to `p_vaddr` and
zero-fills `[p_vaddr + p_filesz, p_vaddr + p_memsz)` (stated pointwise
for non-overlapping segments).  In particular, on the spec's concrete
two-segment image exactly 5 pages are mapped and the last 0xA00 bytes of
the second segment read as zero. -/
theorem C1_copy_load_segments (st : MachineState) (file : Nat → Nat) (ehdr : Ehdr)
    (vmin vmax : Nat)
    (hmin1 : ∃ ph ∈ ehdr.phdrs, ph.p_type = PT_LOAD ∧ ph.p_vaddr = vmin)
    (hmin2 : ∀ ph ∈ ehdr.phdrs, ph.p_type = PT_LOAD → vmin ≤ ph.p_vaddr)
    (hmax1 : ∃ ph ∈ ehdr.phdrs, ph.p_type = PT_LOAD ∧ ph.p_vaddr + ph.p_memsz = vmax)
    (hmax2 : ∀ ph ∈ ehdr.phdrs, ph.p_type = PT_LOAD → ph.p_vaddr + ph.p_memsz ≤ vmax)
    (hsz : ∀ ph ∈ ehdr.phdrs, ph.p_type = PT_LOAD →
      ph.p_filesz ≤ ph.p_memsz ∧ ph.p_vaddr + ph.p_memsz < U64)
    (hov : vmax - vmin + 4095 < U64)
    (hdisj : ehdr.phdrs.Pairwise (fun p q => p.p_type = PT_LOAD → q.p_type = PT_LOAD →
      p.p_vaddr + p.p_memsz ≤ q.p_vaddr ∨ q.p_vaddr + q.p_memsz ≤ p.p_vaddr)) :
    (copyLoadSegments st file ehdr =
      match setupPageMaps st (LinAddr.ofValue vmin) ((vmax - vmin + 4095) / 4096) with
      | (st1, some e) => (st1, some e)
      | (st1, none) => ({ st1 with mem := applyLoads file st1.mem ehdr.phdrs }, none)) ∧
    ((copyLoadSegments st file ehdr).2 = none →
      ∀ ph ∈ ehdr.phdrs, ph.p_type = PT_LOAD →
        (∀ k, k < ph.p_filesz →
          (copyLoadSegments st file ehdr).1.mem (ph.p_vaddr + k) =
            file (ph.p_offset + k)) ∧
        (∀ k, ph.p_filesz ≤ k → k < ph.p_memsz →
          (copyLoadSegments st file ehdr).1.mem (ph.p_vaddr + k) = 0)) ∧
    (leavesCount 4 (copyLoadSegments exampleState exampleFile exampleElf).1.root.entries = 5 ∧
     ∀ k, 0x800 ≤ k → k < 0x1200 →
       (copyLoadSegments exampleState exampleFile exampleElf).1.mem
         (0xffff800000003000 + k) = 0) := by
  obtain ⟨phm, hphm_mem, hphm_ty, hphm_eq⟩ := hmin1
  obtain ⟨phx, hphx_mem, hphx_ty, hphx_eq⟩ := hmax1
  have hvmaxlt : vmax < U64 := hphx_eq ▸ (hsz phx hphx_mem hphx_ty).2
  have hvminle : vmin ≤ vmax := by
    have h2 : phm.p_vaddr + phm.p_memsz ≤ vmax := hmax2 phm hphm_mem hphm_ty
    omega
  have hvminlt : vmin < U64 := by omega
  have hvmin : vaddrMinLoop ehdr.phdrs (U64 - 1) = vmin := by
    apply Nat.le_antisymm
    · have h := (vaddrMinLoop_le ehdr.phdrs (U64 - 1)).2 phm hphm_mem hphm_ty
      omega
    · rcases vaddrMinLoop_cases ehdr.phdrs (U64 - 1) with h | ⟨ph, hm, ht, he⟩
      · rw [h]
        omega
      · rw [he]
        exact hmin2 ph hm ht
  have hvmax : vaddrMaxLoop ehdr.phdrs 0 = vmax := by
    apply Nat.le_antisymm
    · rcases vaddrMaxLoop_cases ehdr.phdrs 0 with h | ⟨ph, hm, ht, he⟩
      · rw [h]
        omega
      · rw [he, Nat.mod_eq_of_lt (hsz ph hm ht).2]
        exact hmax2 ph hm ht
    · have h := (vaddrMaxLoop_ge ehdr.phdrs 0).2 phx hphx_mem hphx_ty
      rw [Nat.mod_eq_of_lt (hsz phx hphx_mem hphx_ty).2, hphx_eq] at h
      exact h
  have hN : ((vmax + U64 - vmin % U64) % U64 + 4095) % U64 / 4096 =
      (vmax - vmin + 4095) / 4096 := by
    rw [Nat.mod_eq_of_lt hvminlt]
    have h2 : vmax + U64 - vmin = (vmax - vmin) + U64 := by omega
    rw [h2, Nat.add_mod_right, Nat.mod_eq_of_lt (by omega : vmax - vmin < U64),
      Nat.mod_eq_of_lt hov]
  have heq : copyLoadSegments st file ehdr =
      match setupPageMaps st (LinAddr.ofValue vmin) ((vmax - vmin + 4095) / 4096) with
      | (st1, some e) => (st1, some e)
      | (st1, none) => ({ st1 with mem := applyLoads file st1.mem ehdr.phdrs }, none) := by
    rw [copyLoadSegments_eq, hvmin, hvmax, hN]
  refine ⟨heq, ?_, ?_, ?_⟩
  · intro hsucc ph hph hty
    cases hsp : setupPageMaps st (LinAddr.ofValue vmin) ((vmax - vmin + 4095) / 4096) with
    | mk st1 err =>
      cases err with
      | some e =>
        rw [heq, hsp] at hsucc
        simp at hsucc
      | none =>
        have hres : copyLoadSegments st file ehdr =
            ({ st1 with mem := applyLoads file st1.mem ehdr.phdrs }, none) := by
          rw [heq, hsp]
        rw [hres]
        have hsz' : ∀ q ∈ ehdr.phdrs, q.p_type = PT_LOAD →
            q.p_filesz ≤ q.p_memsz ∧ q.p_memsz < U64 := by
          intro q hq ht
          have h := hsz q hq ht
          exact ⟨h.1, by omega⟩
        exact applyLoads_bytes ehdr.phdrs file st1.mem hsz' hdisj ph hph hty
  · decide
  · have hconc : (copyLoadSegments exampleState exampleFile exampleElf).1.mem =
        applyLoads exampleFile exampleState.mem exampleElf.phdrs := rfl
    intro k hk1 hk2
    rw [hconc]
    exact (applyLoads_bytes exampleElf.phdrs exampleFile exampleState.mem
      (by decide) (by decide)
      ⟨PT_LOAD, 0x2000, 0xffff800000003000, 0x800, 0x1200⟩ (by decide) (by decide)).2
      k hk1 hk2

/-- Closed instance of C1 on the spec's two-segment image, discharging
every hypothesis at that image. -/
theorem C1_witness :
    leavesCount 4 (copyLoadSegments exampleState exampleFile exampleElf).1.root.entries = 5 ∧
    (copyLoadSegments exampleState exampleFile exampleElf).1.mem
      (0xffff800000003000 + 0x800) = 0 :=
  ⟨(C1_copy_load_segments exampleState exampleFile exampleElf
      0xffff800000000000 0xffff800000004200
      ⟨exampleElf.phdrs[0], by decide, by decide, by decide⟩
      (by decide)
      ⟨exampleElf.phdrs[1], by decide, by decide, by decide⟩
      (by decide) (by decide) (by decide) (by decide)).2.2.1,
   (C1_copy_load_segments exampleState exampleFile exampleElf
      0xffff800000000000 0xffff800000004200
      ⟨exampleElf.phdrs[0], by decide, by decide, by decide⟩
      (by decide)
      ⟨exampleElf.phdrs[1], by decide, by decide, by decide⟩
      (by decide) (by decide) (by decide) (by decide)).2.2.2
     0x800 (by decide) (by decide)⟩

end MikanOS

